import Mathlib

/-!
Verification of the candlestick structure engine of the GU_PIAO_TO_REDIS
repository: containment-resolution of overlapping bars, sliding-window
extrema, turning-point (fractal) detection with alternation validation,
directional segment construction, and the breakout pattern matchers.

Prices are modelled as rationals (`ℚ`); the float sentinels `-math.inf` /
`math.inf` used by the sliding-window routines are modelled as `⊥ : WithBot ℚ`
and `⊤ : WithTop ℚ`.  Python list indexing that can raise `IndexError` is
modelled in the `Except String` monad; in-range indexing is modelled with
`List.getD` at positions that are provably in bounds.  Turn kinds are `ℤ`
(`1` = peak, `-1` = trough); output arrays are `List ℚ` as the sources
produce float arrays.
-/

/-- Floating point tolerance `1e-6` shared by the whole engine. -/
def eps : ℚ := 1 / 1000000

instance {ε α : Type} [DecidableEq ε] [DecidableEq α] : DecidableEq (Except ε α)
  | .error e, .error f => decidable_of_iff (e = f) (by simp)
  | .error _, .ok _ => isFalse (by simp)
  | .ok _, .error _ => isFalse (by simp)
  | .ok a, .ok b => decidable_of_iff (a = b) (by simp)

namespace gupiaojichu

/-- `MergedBar` from `gupiaojichu.py`: a bar surviving containment merging. -/
structure MergedBar where
  high : ℚ
  low : ℚ
  orig_idx : ℕ
  is_same_value : Bool
deriving Repr, DecidableEq

instance : Inhabited MergedBar := ⟨⟨0, 0, 0, false⟩⟩

/-- `sliding_max(arr, window_size)` from `gupiaojichu.py` (monotonic deque):
the recursive worker processing index `i` onwards, carrying the deque `dq`
(head = deque front).  Entries before the window is formed keep the
`-math.inf` sentinel, modelled as `⊥`. -/
def smGo (arr : List ℚ) (window_size : ℕ) (dq : List ℕ) (i : ℕ) : List (WithBot ℚ) :=
  if _h : i < arr.length then
    -- while dq and dq[0] <= i - window_size: dq.popleft()
    let dq1 := dq.dropWhile (fun j => j + window_size ≤ i)
    -- while dq and arr[dq[-1]] <= arr[i]: dq.pop()
    let dq2 := (dq1.reverse.dropWhile (fun j => arr.getD j 0 ≤ arr.getD i 0)).reverse
    let dq3 := dq2 ++ [i]
    -- if i >= window_size - 1: result[i] = arr[dq[0]]
    let entry : WithBot ℚ :=
      if window_size - 1 ≤ i then ((arr.getD (dq3.headD 0) 0 : ℚ) : WithBot ℚ) else ⊥
    entry :: smGo arr window_size dq3 (i + 1)
  else []
termination_by arr.length - i

/-- `sliding_max(arr, window_size)` from `gupiaojichu.py`. -/
def sliding_max (arr : List ℚ) (window_size : ℕ) : List (WithBot ℚ) :=
  smGo arr window_size [] 0

/-- `sliding_min(arr, window_size)` from `gupiaojichu.py`: the recursive
worker; the `math.inf` sentinel is modelled as `⊤`. -/
def snGo (arr : List ℚ) (window_size : ℕ) (dq : List ℕ) (i : ℕ) : List (WithTop ℚ) :=
  if _h : i < arr.length then
    let dq1 := dq.dropWhile (fun j => j + window_size ≤ i)
    -- while dq and arr[dq[-1]] >= arr[i]: dq.pop()
    let dq2 := (dq1.reverse.dropWhile (fun j => arr.getD j 0 ≥ arr.getD i 0)).reverse
    let dq3 := dq2 ++ [i]
    let entry : WithTop ℚ :=
      if window_size - 1 ≤ i then ((arr.getD (dq3.headD 0) 0 : ℚ) : WithTop ℚ) else ⊤
    entry :: snGo arr window_size dq3 (i + 1)
  else []
termination_by arr.length - i

/-- `sliding_min(arr, window_size)` from `gupiaojichu.py`. -/
def sliding_min (arr : List ℚ) (window_size : ℕ) : List (WithTop ℚ) :=
  snGo arr window_size [] 0

/-- One iteration of the merging loop of `merge_contained_bars` from
`gupiaojichu.py`.  The accumulated output list is kept reversed (head =
current tail of the Python list `merged`); `i` is the loop index. -/
def mergeStep (merged : List MergedBar) (curr_high curr_low : ℚ) (i : ℕ) : List MergedBar :=
  match merged with
  | [] => [⟨curr_high, curr_low, i, decide (|curr_high - curr_low| < eps)⟩]
  | last_bar :: rest =>
    -- consecutive same-value (flat) bars with equal values merge, keeping
    -- the earliest orig_idx
    if |curr_high - curr_low| < eps ∧ last_bar.is_same_value ∧
        |last_bar.high - curr_high| < eps then
      ⟨last_bar.high, last_bar.low, last_bar.orig_idx, true⟩ :: rest
    -- a flat bar never merges by containment with a non-flat neighbour
    else if last_bar.is_same_value ∨ |curr_high - curr_low| < eps then
      ⟨curr_high, curr_low, i, decide (|curr_high - curr_low| < eps)⟩ :: merged
    -- is_contained: one range encloses the other (within eps)
    else if ¬ ((curr_high ≤ last_bar.high + eps ∧ curr_low ≥ last_bar.low - eps) ∨
        (last_bar.high ≤ curr_high + eps ∧ last_bar.low ≥ curr_low - eps)) then
      ⟨curr_high, curr_low, i, decide (|curr_high - curr_low| < eps)⟩ :: merged
    else
      match rest with
      | prev_last :: _ =>
        -- is_up / is_down classify the trend of the tail against the entry
        -- two positions back; otherwise merge to the enclosing range keeping
        -- the existing tail's orig_idx
        (if last_bar.high > prev_last.high + eps ∧ last_bar.low > prev_last.low + eps then
          (⟨max last_bar.high curr_high, max last_bar.low curr_low,
            if |max last_bar.high curr_high - last_bar.high| < eps then last_bar.orig_idx
            else i, false⟩ : MergedBar)
        else if last_bar.high < prev_last.high - eps ∧ last_bar.low < prev_last.low - eps then
          ⟨min last_bar.high curr_high, min last_bar.low curr_low,
            if |min last_bar.low curr_low - last_bar.low| < eps then last_bar.orig_idx
            else i, false⟩
        else
          ⟨max last_bar.high curr_high, min last_bar.low curr_low, last_bar.orig_idx,
            false⟩) :: rest
      | [] =>
        -- only one non-flat bar so far: merge to the enclosing range
        (⟨max last_bar.high curr_high, min last_bar.low curr_low,
          if |max last_bar.high curr_high - last_bar.high| < eps then last_bar.orig_idx
          else i, false⟩ : MergedBar) :: rest

/-- Python list read `xs[i]`, raising `IndexError` when out of range. -/
def readIdx (xs : List ℚ) (i : ℕ) : Except String ℚ :=
  match xs.get? i with
  | some v => .ok v
  | none => .error "IndexError: list index out of range"

/-- `merge_contained_bars(high, low, data_len)` from `gupiaojichu.py`. -/
def merge_contained_bars (high low : List ℚ) (data_len : ℕ) : Except String (List MergedBar) := do
  if data_len = 0 then return []
  let revMerged ← (List.range data_len).foldlM
    (fun merged i => do
      let curr_high ← readIdx high i
      let curr_low ← readIdx low i
      pure (mergeStep merged curr_high curr_low i))
    ([] : List MergedBar)
  return revMerged.reverse

/-- The pure value of `merge_contained_bars` when no read is out of range. -/
def mergePure (high low : List ℚ) (data_len : ℕ) : List MergedBar :=
  ((List.range data_len).foldl
    (fun merged i => mergeStep merged (high.getD i 0) (low.getD i 0) i) []).reverse


/-- The key value of a candidate turn in `gupiaojichu.py`:
`merged_bars[idx].high if type == 1 else merged_bars[idx].low`. -/
def turnVal (merged_bars : List MergedBar) (idx : ℕ) (t : ℤ) : ℚ :=
  if t = 1 then (merged_bars.getD idx default).high else (merged_bars.getD idx default).low

/-- `[bar.high for bar in merged_bars]`. -/
def mergedHigh (merged_bars : List MergedBar) : List ℚ := merged_bars.map (·.high)

/-- `[bar.low for bar in merged_bars]`. -/
def mergedLow (merged_bars : List MergedBar) : List ℚ := merged_bars.map (·.low)

/-- `pre_max_high = sliding_max(merged_high, window_size)` (window 4). -/
def preMaxHigh (merged_bars : List MergedBar) : List (WithBot ℚ) :=
  sliding_max (mergedHigh merged_bars) 4

/-- `pre_min_low = sliding_min(merged_low, window_size)`. -/
def preMinLow (merged_bars : List MergedBar) : List (WithTop ℚ) :=
  sliding_min (mergedLow merged_bars) 4

/-- `post_max_high`: sliding max of the reversed highs, reversed back. -/
def postMaxHigh (merged_bars : List MergedBar) : List (WithBot ℚ) :=
  (sliding_max (mergedHigh merged_bars).reverse 4).reverse

/-- `post_min_low`: sliding min of the reversed lows, reversed back. -/
def postMinLow (merged_bars : List MergedBar) : List (WithTop ℚ) :=
  (sliding_min (mergedLow merged_bars).reverse 4).reverse

/-- Peak test of the interior marking loop of `identify_turns`
(`current_high >= max_prev_next_high - 1e-6`, where the neighbourhood
maximum may be the `-inf` sentinel `⊥`). -/
def peakCondI (merged_bars : List MergedBar) (i : ℕ) : Prop :=
  (((merged_bars.getD i default).high : WithBot ℚ)) ≥
    max ((preMaxHigh merged_bars).getD (i - 1) ⊥) ((postMaxHigh merged_bars).getD (i + 1) ⊥)
      + ((-eps : ℚ) : WithBot ℚ)

/-- Trough test of the interior marking loop of `identify_turns`
(`current_low <= min_prev_next_low + 1e-6`). -/
def troughCondI (merged_bars : List MergedBar) (i : ℕ) : Prop :=
  (((merged_bars.getD i default).low : WithTop ℚ)) ≤
    min ((preMinLow merged_bars).getD (i - 1) ⊤) ((postMinLow merged_bars).getD (i + 1) ⊤)
      + ((eps : ℚ) : WithTop ℚ)

instance (m : List MergedBar) (i : ℕ) : Decidable (peakCondI m i) := by
  unfold peakCondI; infer_instance

instance (m : List MergedBar) (i : ℕ) : Decidable (troughCondI m i) := by
  unfold troughCondI; infer_instance

/-- Body of the interior marking loop: peak is tested first (`elif`). -/
def markInterior (merged_bars : List MergedBar) (i : ℕ) : Option (ℕ × ℤ) :=
  if peakCondI merged_bars i then some (i, 1)
  else if troughCondI merged_bars i then some (i, -1)
  else none

/-- Preceding-window maximum used by the trailing marking loop: either the
precomputed sliding array (only reachable when `start_prev == 0`), or a direct
maximum over `merged_high[start_prev:i]`, `-inf` when the slice is empty. -/
def trailMaxPrev (merged_bars : List MergedBar) (i : ℕ) : WithBot ℚ :=
  if i - 4 = 0 ∧ 3 ≤ i - 1 then (preMaxHigh merged_bars).getD (i - 1) ⊥
  else if i - 4 < i then
    (((mergedHigh merged_bars).drop (i - 4)).take (i - (i - 4))).maximum
  else ⊥

/-- Preceding-window minimum used by the trailing marking loop. -/
def trailMinPrev (merged_bars : List MergedBar) (i : ℕ) : WithTop ℚ :=
  if i - 4 = 0 ∧ 3 ≤ i - 1 then (preMinLow merged_bars).getD (i - 1) ⊤
  else if i - 4 < i then
    (((mergedLow merged_bars).drop (i - 4)).take (i - (i - 4))).minimum
  else ⊤

/-- Body of the trailing marking loop (last `window_size` bars): peak first. -/
def markTrailing (merged_bars : List MergedBar) (i : ℕ) : Option (ℕ × ℤ) :=
  if (((merged_bars.getD i default).high : WithBot ℚ)) ≥
      trailMaxPrev merged_bars i + ((-eps : ℚ) : WithBot ℚ) then some (i, 1)
  else if (((merged_bars.getD i default).low : WithTop ℚ)) ≤
      trailMinPrev merged_bars i + ((eps : ℚ) : WithTop ℚ) then some (i, -1)
  else none

/-- The candidate turn list `turns` of `identify_turns`: the interior loop
over `range(window_size, merged_len - window_size)` followed by the trailing
loop over `range(max(0, merged_len - window_size), merged_len)`. -/
def candidateTurns (merged_bars : List MergedBar) : List (ℕ × ℤ) :=
  (List.range' 4 (merged_bars.length - 4 - 4)).filterMap (markInterior merged_bars) ++
    (List.range' (merged_bars.length - 4) (merged_bars.length - (merged_bars.length - 4))).filterMap
      (markTrailing merged_bars)

/-- The inner `while` of the run-compaction loop of `identify_turns`: absorb
following candidates of the same type, keeping the most extreme value
(strictly better by `1e-6`); returns the chosen `(index, value)` and the
unconsumed remainder. -/
def runBest (merged_bars : List MergedBar) (current_type : ℤ) :
    (ℕ × ℚ) → List (ℕ × ℤ) → (ℕ × ℚ) × List (ℕ × ℤ)
  | best, [] => (best, [])
  | best, (j, tj) :: rest =>
    if tj = current_type then
      let val := turnVal merged_bars j current_type
      if (current_type = 1 ∧ val > best.2 + eps) ∨ (current_type = -1 ∧ val < best.2 - eps) then
        runBest merged_bars current_type (j, val) rest
      else
        runBest merged_bars current_type best rest
    else (best, (j, tj) :: rest)

theorem runBest_len (merged_bars : List MergedBar) (t : ℤ) (best : ℕ × ℚ)
    (l : List (ℕ × ℤ)) : (runBest merged_bars t best l).2.length ≤ l.length := by
  induction l generalizing best with
  | nil => simp [runBest]
  | cons p rest ih =>
    obtain ⟨j, tj⟩ := p
    simp only [runBest]
    split
    · split
      · exact le_trans (ih _) (Nat.le_succ _)
      · exact le_trans (ih _) (Nat.le_succ _)
    · simp

/-- The run-compaction loop of `identify_turns` producing `new_turns`:
consecutive same-type candidates collapse to the single most extreme one. -/
def compactTurns (merged_bars : List MergedBar) : List (ℕ × ℤ) → List (ℕ × ℤ)
  | [] => []
  | (i, t) :: rest =>
    let r := runBest merged_bars t (i, turnVal merged_bars i t) rest
    (r.1.1, t) :: compactTurns merged_bars r.2
termination_by l => l.length
decreasing_by
  simpa using Nat.lt_succ_of_le (runBest_len merged_bars t (i, turnVal merged_bars i t) rest)

/-- The validity test of the alternation-validation loop
(`验证高低关系`): a new peak must exceed the prior trough by `1e-6`, a new
trough must be below the prior peak by `1e-6`. -/
def validCheck (merged_bars : List MergedBar) (prev curr : ℕ × ℤ) : Bool :=
  let prev_val := turnVal merged_bars prev.1 prev.2
  let curr_val := turnVal merged_bars curr.1 curr.2
  if (prev.2, curr.2) = (-1, 1) then decide (curr_val > prev_val + eps)
  else if (prev.2, curr.2) = (1, -1) then decide (curr_val < prev_val - eps)
  else false

/-- One step of the alternation-validation loop of `identify_turns` over the
validated stack (head = top): an empty stack takes the candidate; a same-kind
candidate is skipped; a differing-kind candidate is pushed when valid, and
otherwise the stack top is popped and the candidate dropped. -/
def validateStep (merged_bars : List MergedBar) (stack : List (ℕ × ℤ)) (c : ℕ × ℤ) :
    List (ℕ × ℤ) :=
  match stack with
  | [] => [c]
  | (prev_idx, prev_type) :: rest =>
    if prev_type = c.2 then stack
    else if validCheck merged_bars (prev_idx, prev_type) c then c :: stack
    else rest

/-- The full alternation-validation pass (`validated_turns`). -/
def validateTurns (merged_bars : List MergedBar) (new_turns : List (ℕ × ℤ)) :
    List (ℕ × ℤ) :=
  (new_turns.foldl (validateStep merged_bars) []).reverse

/-- The emission filter (`confirmed_turns`): keep each point whose successor
has the opposite kind; the final point is always kept. -/
def confirmTurns : List (ℕ × ℤ) → List (ℕ × ℤ)
  | [] => []
  | [a] => [a]
  | a :: b :: rest =>
    (if (a.2 = 1 ∧ b.2 = -1) ∨ (a.2 = -1 ∧ b.2 = 1) then [a] else []) ++
      confirmTurns (b :: rest)

/-- The output-writing loop: map each confirmed turn to its original index
and write `±1.0` there. -/
def writeTurns (data_len : ℕ) (merged_bars : List MergedBar)
    (confirmed : List (ℕ × ℤ)) (pf_out : List ℚ) : List ℚ :=
  confirmed.foldl
    (fun out p =>
      if (merged_bars.getD p.1 default).orig_idx < data_len then
        out.set (merged_bars.getD p.1 default).orig_idx (p.2 : ℚ)
      else out)
    pf_out

/-- The validated turn list of `identify_turns`: candidate marking, run
compaction, then alternation validation. -/
def validatedOf (merged_bars : List MergedBar) : List (ℕ × ℤ) :=
  validateTurns merged_bars (compactTurns merged_bars (candidateTurns merged_bars))

/-- `identify_turns(data_len, high, low)` from `gupiaojichu.py`. -/
def identify_turns (data_len : ℕ) (high low : List ℚ) : Except String (List ℚ) := do
  if data_len < 6 then return List.replicate data_len 0
  let merged_bars ← merge_contained_bars high low data_len
  if merged_bars.length ≤ 4 * 2 then return List.replicate data_len 0
  if (validatedOf merged_bars).length ≤ 4 then return List.replicate data_len 0
  return writeTurns data_len merged_bars (confirmTurns (validatedOf merged_bars))
    (List.replicate data_len 0)

end gupiaojichu

namespace gu_piao_5M_data

/-- Peak test of the interior marking loop of `identify_turns` in
`gu_piao_5M_data.py`: the current high reaches the maximum of the previous 4
and following 4 highs (accumulated from the `float('-inf')` seed, modelled as
`List.maximum` over the window with `⊥` for the empty case). -/
def peakCondI (high : List ℚ) (i : ℕ) : Prop :=
  ((high.getD i 0 : ℚ) : WithBot ℚ) ≥
    (((List.range' (i - 4) 4).map (fun j => high.getD j 0)) ++
      ((List.range' (i + 1) 4).map (fun j => high.getD j 0))).maximum

/-- Trough test of the interior marking loop of `identify_turns` in
`gu_piao_5M_data.py`. -/
def troughCondI (low : List ℚ) (i : ℕ) : Prop :=
  ((low.getD i 0 : ℚ) : WithTop ℚ) ≤
    (((List.range' (i - 4) 4).map (fun j => low.getD j 0)) ++
      ((List.range' (i + 1) 4).map (fun j => low.getD j 0))).minimum

/-- Peak test of the trailing marking loop (`start_prev = max(0, i-4)`,
maximum over `high[start_prev:i]`). -/
def peakCondT (high : List ℚ) (i : ℕ) : Prop :=
  ((high.getD i 0 : ℚ) : WithBot ℚ) ≥
    ((List.range' (i - 4) (i - (i - 4))).map (fun j => high.getD j 0)).maximum

/-- Trough test of the trailing marking loop. -/
def troughCondT (low : List ℚ) (i : ℕ) : Prop :=
  ((low.getD i 0 : ℚ) : WithTop ℚ) ≤
    ((List.range' (i - 4) (i - (i - 4))).map (fun j => low.getD j 0)).minimum

instance (high : List ℚ) (i : ℕ) : Decidable (peakCondI high i) := by
  unfold peakCondI; infer_instance

instance (low : List ℚ) (i : ℕ) : Decidable (troughCondI low i) := by
  unfold troughCondI; infer_instance

instance (high : List ℚ) (i : ℕ) : Decidable (peakCondT high i) := by
  unfold peakCondT; infer_instance

instance (low : List ℚ) (i : ℕ) : Decidable (troughCondT low i) := by
  unfold troughCondT; infer_instance

/-- Candidate turns of `identify_turns` in `gu_piao_5M_data.py`: both the
peak and the trough test are independent `if`s, so one bar can be marked
twice; interior loop over `range(4, data_len - 4)` then trailing loop over
`range(max(0, data_len - 4), data_len)`. -/
def candidateTurns (high low : List ℚ) : List (ℕ × ℤ) :=
  (List.range' 4 (high.length - 4 - 4)).flatMap
    (fun i => (if peakCondI high i then [((i : ℕ), (1 : ℤ))] else []) ++
      (if troughCondI low i then [((i : ℕ), (-1 : ℤ))] else [])) ++
  (List.range' (high.length - 4) (high.length - (high.length - 4))).flatMap
    (fun i => (if peakCondT high i then [((i : ℕ), (1 : ℤ))] else []) ++
      (if troughCondT low i then [((i : ℕ), (-1 : ℤ))] else []))

/-- Inner `while` of the run-compaction loop in `gu_piao_5M_data.py`:
tracks the best high and low values of the current run (no tolerance). -/
def runBest (high low : List ℚ) (current_type : ℤ) :
    (ℕ × ℚ × ℚ) → List (ℕ × ℤ) → (ℕ × ℚ × ℚ) × List (ℕ × ℤ)
  | st, [] => (st, [])
  | st, (j, tj) :: rest =>
    if tj = current_type then
      if current_type = 1 then
        if high.getD j 0 > st.2.1 then runBest high low current_type (j, high.getD j 0, st.2.2) rest
        else runBest high low current_type st rest
      else
        if low.getD j 0 < st.2.2 then runBest high low current_type (j, st.2.1, low.getD j 0) rest
        else runBest high low current_type st rest
    else (st, (j, tj) :: rest)

theorem runBestHL_len (high low : List ℚ) (t : ℤ) (st : ℕ × ℚ × ℚ)
    (l : List (ℕ × ℤ)) : (runBest high low t st l).2.length ≤ l.length := by
  induction l generalizing st with
  | nil => simp [runBest]
  | cons p rest ih =>
    obtain ⟨j, tj⟩ := p
    simp only [runBest]
    split
    · split
      · split
        · exact le_trans (ih _) (Nat.le_succ _)
        · exact le_trans (ih _) (Nat.le_succ _)
      · split
        · exact le_trans (ih _) (Nat.le_succ _)
        · exact le_trans (ih _) (Nat.le_succ _)
    · simp

/-- Run compaction of `identify_turns` in `gu_piao_5M_data.py`. -/
def compactTurns (high low : List ℚ) : List (ℕ × ℤ) → List (ℕ × ℤ)
  | [] => []
  | (i, t) :: rest =>
    let r := runBest high low t (i, high.getD i 0, low.getD i 0) rest
    (r.1.1, t) :: compactTurns high low r.2
termination_by l => l.length
decreasing_by
  simpa using Nat.lt_succ_of_le (runBestHL_len high low t (i, high.getD i 0, low.getD i 0) rest)

/-- Emission filter of `identify_turns` in `gu_piao_5M_data.py`: keep each
point whose successor has the opposite kind.  Unlike `gupiaojichu.py`, the
final point is NOT appended. -/
def confirmTurns : List (ℕ × ℤ) → List (ℕ × ℤ)
  | [] => []
  | [_] => []
  | a :: b :: rest =>
    (if (a.2 = 1 ∧ b.2 = -1) ∨ (a.2 = -1 ∧ b.2 = 1) then [a] else []) ++
      confirmTurns (b :: rest)

/-- The compacted turn list of `identify_turns` in `gu_piao_5M_data.py`. -/
def newTurnsOf (high low : List ℚ) : List (ℕ × ℤ) :=
  compactTurns high low (candidateTurns high low)

/-- `identify_turns(high, low)` from `gu_piao_5M_data.py`: raises
`ValueError` when the lengths differ, all-zero for 6 or fewer bars. -/
def identify_turns (high low : List ℚ) : Except String (List ℚ) :=
  if low.length ≠ high.length then .error "ValueError: high and low must have the same length"
  else if high.length ≤ 6 then .ok (List.replicate high.length 0)
  else if (newTurnsOf high low).length ≤ 3 then .ok (List.replicate high.length 0)
  else
    .ok ((confirmTurns (newTurnsOf high low)).foldl
      (fun out p => if p.1 < high.length then out.set p.1 (p.2 : ℚ) else out)
      (List.replicate high.length 0))

end gu_piao_5M_data

/-- Python `int()` truncation toward zero on a rational. -/
def qtrunc (v : ℚ) : ℤ := if 0 ≤ v then ⌊v⌋ else ⌈v⌉

/-- Turning-point extraction shared by the matchers: all `(index, int(val))`
with `frac[i] != 0`, scanning `range(data_len)`. -/
def turnPointsOf (frac : List ℚ) (data_len : ℕ) : List (ℕ × ℤ) :=
  (List.range data_len).filterMap
    (fun i => if frac.getD i 0 ≠ 0 then some (i, qtrunc (frac.getD i 0)) else none)

/-- Find the first turn point of direction `-d` in the remainder, returning
it together with the list that follows it. -/
def findOpp (d : ℤ) : List (ℕ × ℤ) → Option ((ℕ × ℤ) × List (ℕ × ℤ))
  | [] => none
  | p :: rest => if p.2 = -d then some (p, rest) else findOpp d rest

theorem findOpp_len (d : ℤ) (l : List (ℕ × ℤ)) (p : ℕ × ℤ) (r : List (ℕ × ℤ))
    (h : findOpp d l = some (p, r)) : r.length < l.length := by
  induction l with
  | nil => simp [findOpp] at h
  | cons q rest ih =>
    simp only [findOpp] at h
    split at h
    · cases h; simp
    · exact Nat.lt_succ_of_lt (ih h)

/-- Greedy segment construction shared by the matchers: from the current
turn point, find the nearest later opposite-direction point, emit the
segment `(start, end, direction)` and continue from the found point. -/
def buildSegments : List (ℕ × ℤ) → List (ℕ × ℕ × ℤ)
  | [] => []
  | (i1, d1) :: rest =>
    match h : findOpp d1 rest with
    | none => []
    | some (p2, rest') => (i1, p2.1, d1) :: buildSegments (p2 :: rest')
termination_by l => l.length
decreasing_by
  simpa using Nat.succ_lt_succ (findOpp_len _ _ _ _ h)

/-- Down-segments (direction `1`: from a peak to a trough), as
`(start index, end index)` pairs. -/
def downSegmentsOf (frac : List ℚ) (data_len : ℕ) : List (ℕ × ℕ) :=
  (buildSegments (turnPointsOf frac data_len)).filterMap
    (fun s => if s.2.2 = 1 then some (s.1, s.2.1) else none)

/-- Stable insertion of a pair into a list sorted by descending end index
(`sort(key=lambda x: -x[1])`). -/
def insertByEndDesc (x : ℕ × ℕ) : List (ℕ × ℕ) → List (ℕ × ℕ)
  | [] => [x]
  | y :: ys => if x.2 ≥ y.2 then x :: y :: ys else y :: insertByEndDesc x ys

/-- Stable sort by descending end index. -/
def sortByEndDesc (l : List (ℕ × ℕ)) : List (ℕ × ℕ) :=
  l.foldr insertByEndDesc []

/-- The down-segment list of both matchers, sorted most-recent first
(`down_segments.sort(key=lambda x: -x[1])`). -/
def downSorted (frac : List ℚ) (data_len : ℕ) : List (ℕ × ℕ) :=
  sortByEndDesc (downSegmentsOf frac data_len)

namespace gu_piao_5M_data

/-- `three_buy_variant(frac, high, low)` from `gu_piao_5M_data.py`:
three-buy-basic matcher.  Raises `ValueError` on length mismatch.
Emits `+1` at the last bar when the three most-recent down-segments have
strictly decreasing troughs and the last bar's high strictly exceeds the
starting peak of one of the two most-recent down-segments. -/
def three_buy_variant (frac high low : List ℚ) : Except String (List ℚ) :=
  if low.length ≠ high.length ∨ frac.length ≠ high.length then
    .error "ValueError: frac, high, low must have the same length"
  else if high.length ≤ 0 then .ok (List.replicate high.length 0)
  else if (downSorted frac high.length).length < 3 then .ok (List.replicate high.length 0)
  -- prev_low >= prev2_low: troughs not strictly decreasing
  else if low.getD ((downSorted frac high.length).getD 1 (0, 0)).2 0 ≥
      low.getD ((downSorted frac high.length).getD 2 (0, 0)).2 0 then
    .ok (List.replicate high.length 0)
  -- latest_low >= prev_low
  else if low.getD ((downSorted frac high.length).getD 0 (0, 0)).2 0 ≥
      low.getD ((downSorted frac high.length).getD 1 (0, 0)).2 0 then
    .ok (List.replicate high.length 0)
  -- last_k_price <= latest_seg_high and last_k_price <= prev_seg_high
  else if high.getD (high.length - 1) 0 ≤
        high.getD ((downSorted frac high.length).getD 0 (0, 0)).1 0 ∧
      high.getD (high.length - 1) 0 ≤
        high.getD ((downSorted frac high.length).getD 1 (0, 0)).1 0 then
    .ok (List.replicate high.length 0)
  else .ok ((List.replicate high.length (0 : ℚ)).set (high.length - 1) 1)

end gu_piao_5M_data

namespace gu_piao_5M_data_bixia

/-- `three_buy_variant(frac, high, low)` from `gu_piao_5M_data_bixia.py`:
the bi-xia 4-segment matcher.  Raises `ValueError` on length mismatch.
Requires at least 4 down-segments; among the three most-recent, the middle
one must have a strictly lower trough and a non-higher starting peak than the
oldest, the newest starting peak must be `≥` both older starting peaks, and
the newest trough must be strictly above the middle trough. -/
def three_buy_variant (frac high low : List ℚ) : Except String (List ℚ) :=
  if low.length ≠ high.length ∨ frac.length ≠ high.length then
    .error "ValueError: frac, high, low must have the same length"
  else if high.length ≤ 0 then .ok (List.replicate high.length 0)
  else if (downSorted frac high.length).length < 4 then .ok (List.replicate high.length 0)
  -- prev_low >= prev2_low or prev_high > prev2_high
  else if low.getD ((downSorted frac high.length).getD 1 (0, 0)).2 0 ≥
        low.getD ((downSorted frac high.length).getD 2 (0, 0)).2 0 ∨
      high.getD ((downSorted frac high.length).getD 1 (0, 0)).1 0 >
        high.getD ((downSorted frac high.length).getD 2 (0, 0)).1 0 then
    .ok (List.replicate high.length 0)
  -- latest_high < prev_high or latest_high < prev2_high
  else if high.getD ((downSorted frac high.length).getD 0 (0, 0)).1 0 <
        high.getD ((downSorted frac high.length).getD 1 (0, 0)).1 0 ∨
      high.getD ((downSorted frac high.length).getD 0 (0, 0)).1 0 <
        high.getD ((downSorted frac high.length).getD 2 (0, 0)).1 0 then
    .ok (List.replicate high.length 0)
  -- latest_low <= prev_low
  else if low.getD ((downSorted frac high.length).getD 0 (0, 0)).2 0 ≤
      low.getD ((downSorted frac high.length).getD 1 (0, 0)).2 0 then
    .ok (List.replicate high.length 0)
  else .ok ((List.replicate high.length (0 : ℚ)).set (high.length - 1) 1)

end gu_piao_5M_data_bixia

namespace gupiaojichu

/-- Modelled from the spec: the alternation-validation step as §4.3 of the
specification describes it — a differing-kind candidate failing the
directional inequality causes the stack top to be popped and the candidate
is then *re-tested* against the new top.  Used only to compare the spec's
description with the implemented `validateStep`. -/
def validateStepRetest (merged_bars : List MergedBar) :
    List (ℕ × ℤ) → (ℕ × ℤ) → List (ℕ × ℤ)
  | [], c => [c]
  | (prev_idx, prev_type) :: rest, c =>
    if prev_type = c.2 then (prev_idx, prev_type) :: rest
    else if validCheck merged_bars (prev_idx, prev_type) c then c :: (prev_idx, prev_type) :: rest
    else validateStepRetest merged_bars rest c

/-- Modelled from the spec: the full validation pass under the pop-then-retest
reading of §4.3. -/
def validateTurnsRetest (merged_bars : List MergedBar) (new_turns : List (ℕ × ℤ)) :
    List (ℕ × ℤ) :=
  (new_turns.foldl (validateStepRetest merged_bars) []).reverse

end gupiaojichu

/-- The three-buy-basic emission condition as claim C5 states it, phrased
over the three most-recent down-segments: at least 3 down-segments, troughs
strictly decreasing toward the present, and the final bar's high strictly
above the starting peak of at least one of the two most-recent segments. -/
def threeBuyCond (frac high low : List ℚ) : Prop :=
  3 ≤ (downSorted frac high.length).length ∧
    low.getD ((downSorted frac high.length).getD 1 (0, 0)).2 0 <
      low.getD ((downSorted frac high.length).getD 2 (0, 0)).2 0 ∧
    low.getD ((downSorted frac high.length).getD 0 (0, 0)).2 0 <
      low.getD ((downSorted frac high.length).getD 1 (0, 0)).2 0 ∧
    (high.getD (high.length - 1) 0 >
        high.getD ((downSorted frac high.length).getD 0 (0, 0)).1 0 ∨
      high.getD (high.length - 1) 0 >
        high.getD ((downSorted frac high.length).getD 1 (0, 0)).1 0)

instance (frac high low : List ℚ) : Decidable (threeBuyCond frac high low) := by
  unfold threeBuyCond; infer_instance

/-- The bi-xia emission condition exactly as claim C3 states it (strict
"exceeds" on the newest starting peak, newest trough strictly *below* the
previous trough).  Written from the claim's words for comparison with the
code. -/
def bixiaClaimCond (frac high low : List ℚ) : Prop :=
  4 ≤ (downSorted frac high.length).length ∧
    low.getD ((downSorted frac high.length).getD 1 (0, 0)).2 0 <
      low.getD ((downSorted frac high.length).getD 2 (0, 0)).2 0 ∧
    high.getD ((downSorted frac high.length).getD 1 (0, 0)).1 0 ≤
      high.getD ((downSorted frac high.length).getD 2 (0, 0)).1 0 ∧
    high.getD ((downSorted frac high.length).getD 0 (0, 0)).1 0 >
      high.getD ((downSorted frac high.length).getD 1 (0, 0)).1 0 ∧
    high.getD ((downSorted frac high.length).getD 0 (0, 0)).1 0 >
      high.getD ((downSorted frac high.length).getD 2 (0, 0)).1 0 ∧
    low.getD ((downSorted frac high.length).getD 0 (0, 0)).2 0 <
      low.getD ((downSorted frac high.length).getD 1 (0, 0)).2 0

instance (frac high low : List ℚ) : Decidable (bixiaClaimCond frac high low) := by
  unfold bixiaClaimCond; infer_instance

/-- The bi-xia emission condition actually implemented by
`gu_piao_5M_data_bixia.py`: the newest starting peak need only be `≥` the two
older ones, and the newest trough must be strictly *above* the previous
trough. -/
def bixiaCodeCond (frac high low : List ℚ) : Prop :=
  4 ≤ (downSorted frac high.length).length ∧
    low.getD ((downSorted frac high.length).getD 1 (0, 0)).2 0 <
      low.getD ((downSorted frac high.length).getD 2 (0, 0)).2 0 ∧
    high.getD ((downSorted frac high.length).getD 1 (0, 0)).1 0 ≤
      high.getD ((downSorted frac high.length).getD 2 (0, 0)).1 0 ∧
    high.getD ((downSorted frac high.length).getD 0 (0, 0)).1 0 ≥
      high.getD ((downSorted frac high.length).getD 1 (0, 0)).1 0 ∧
    high.getD ((downSorted frac high.length).getD 0 (0, 0)).1 0 ≥
      high.getD ((downSorted frac high.length).getD 2 (0, 0)).1 0 ∧
    low.getD ((downSorted frac high.length).getD 0 (0, 0)).2 0 >
      low.getD ((downSorted frac high.length).getD 1 (0, 0)).2 0

instance (frac high low : List ℚ) : Decidable (bixiaCodeCond frac high low) := by
  unfold bixiaCodeCond; infer_instance

/-! ## Claim C6 — containment merging, neutral-trend branch -/

/-- C6 counterexample: on `high = [10,20,25]`, `low = [10,5,4]` the third bar
is contained in the second, the local trend is neutral (the first output
entry is flat), and the maximal high `25` is attained by the current bar
(index 2, since `20 < 25`), yet the merged tail keeps `originalIndex = 1` —
the existing tail's index — not the max-high bar's index demanded by the
claim. -/
theorem merge_neutral_counterexample :
    gupiaojichu.merge_contained_bars [10, 20, 25] [10, 5, 4] 3 =
      .ok [⟨10, 10, 0, true⟩, ⟨25, 4, 1, false⟩] ∧ (20 : ℚ) < 25 := by
  constructor
  · with_unfolding_all rfl
  · norm_num

/-- C6 (amended): in the neutral-trend containment branch (at least two
output entries, neither bar flat, containment holds, neither up nor down
trend), the merged bar is `⟨max highs, min lows, last.orig_idx, false⟩`:
the `originalIndex` is always the existing tail's, not the max-high bar's. -/
theorem mergeStep_neutral_keeps_tail_orig_idx
    (last_bar prev_last : gupiaojichu.MergedBar) (rest : List gupiaojichu.MergedBar)
    (ch cl : ℚ) (i : ℕ)
    (hcur : ¬ |ch - cl| < eps)
    (hlast : last_bar.is_same_value = false)
    (hcont : (ch ≤ last_bar.high + eps ∧ cl ≥ last_bar.low - eps) ∨
      (last_bar.high ≤ ch + eps ∧ last_bar.low ≥ cl - eps))
    (hup : ¬ (last_bar.high > prev_last.high + eps ∧ last_bar.low > prev_last.low + eps))
    (hdown : ¬ (last_bar.high < prev_last.high - eps ∧ last_bar.low < prev_last.low - eps)) :
    gupiaojichu.mergeStep (last_bar :: prev_last :: rest) ch cl i =
      ⟨max last_bar.high ch, min last_bar.low cl, last_bar.orig_idx, false⟩ ::
        prev_last :: rest := by
  have h1 : ¬ (|ch - cl| < eps ∧ last_bar.is_same_value = true ∧
      |last_bar.high - ch| < eps) := fun h => hcur h.1
  have h2 : ¬ (last_bar.is_same_value = true ∨ |ch - cl| < eps) := by
    rw [hlast]; simpa using hcur
  have h3 : ¬ ¬ ((ch ≤ last_bar.high + eps ∧ cl ≥ last_bar.low - eps) ∨
      (last_bar.high ≤ ch + eps ∧ last_bar.low ≥ cl - eps)) := not_not_intro hcont
  simp only [gupiaojichu.mergeStep]
  rw [if_neg h1, if_neg h2, if_neg h3, if_neg hup, if_neg hdown]

/-- C6 witness: the neutral-branch lemma applied at the concrete input of the
counterexample run. -/
theorem mergeStep_neutral_keeps_tail_orig_idx_witness :
    gupiaojichu.mergeStep [⟨20, 5, 1, false⟩, ⟨10, 10, 0, true⟩] 25 4 2 =
      ⟨max 20 25, min 5 4, 1, false⟩ :: [(⟨10, 10, 0, true⟩ : gupiaojichu.MergedBar)] :=
  mergeStep_neutral_keeps_tail_orig_idx ⟨20, 5, 1, false⟩ ⟨10, 10, 0, true⟩ [] 25 4 2
    (by norm_num [eps]) rfl (by norm_num [eps]) (by norm_num [eps]) (by norm_num [eps])

/-! ## Claim C2 — alternation validation backtracking -/

/-- C2 counterexample: on the stack `[(0, peak)]` (value `mergedbar 0`, high
`10`), the trough candidate `(1, -1)` with value `15` fails the directional
inequality; the implementation pops the top and *discards* the candidate
(result `[]`), while the spec's pop-then-retest reading would re-test against
the emptied stack and push it (result `[(1, -1)]`). -/
theorem validate_no_retest_counterexample :
    gupiaojichu.validateTurns [⟨10, 5, 0, false⟩, ⟨20, 15, 1, false⟩] [(0, 1), (1, -1)] = [] ∧
    gupiaojichu.validateTurnsRetest [⟨10, 5, 0, false⟩, ⟨20, 15, 1, false⟩] [(0, 1), (1, -1)] =
      [(1, -1)] ∧
    ([] : List (ℕ × ℤ)) ≠ [(1, -1)] :=
  of_decide_eq_true (by with_unfolding_all rfl)

/-- C2 (amended): when a differing-kind candidate fails the directional
inequality, the validation step pops the stack top and discards that
candidate — it is not re-tested against the new top; the loop simply moves to
the next candidate. -/
theorem validateStep_pop_discards_candidate
    (merged_bars : List gupiaojichu.MergedBar) (prev c : ℕ × ℤ) (rest : List (ℕ × ℤ))
    (hne : prev.2 ≠ c.2)
    (hinv : gupiaojichu.validCheck merged_bars prev c = false) :
    gupiaojichu.validateStep merged_bars (prev :: rest) c = rest := by
  obtain ⟨prev_idx, prev_type⟩ := prev
  simp only [gupiaojichu.validateStep]
  rw [if_neg hne, if_neg (by simp [hinv])]

/-- C2 witness: the pop-discard step applied at the counterexample's input. -/
theorem validateStep_pop_discards_candidate_witness :
    gupiaojichu.validateStep [⟨10, 5, 0, false⟩, ⟨20, 15, 1, false⟩] [(0, 1)] (1, -1) = [] :=
  validateStep_pop_discards_candidate [⟨10, 5, 0, false⟩, ⟨20, 15, 1, false⟩] (0, 1) (1, -1) []
    (by decide) (by with_unfolding_all rfl)

/-! ## Claim C9 — fail-fast on length mismatch -/

/-- C9 counterexample: `gupiaojichu.identify_turns` performs no length
validation; called with `high` of length 7 and `low` of length 8 it silently
returns a complete all-zero result instead of failing. -/
theorem identify_turns_length_mismatch_counterexample :
    gupiaojichu.identify_turns 7 [1, 2, 3, 4, 5, 6, 7] [0, 0, 0, 0, 0, 0, 0, 0] =
      .ok (List.replicate 7 0) ∧
    ([1, 2, 3, 4, 5, 6, 7] : List ℚ).length ≠ ([0, 0, 0, 0, 0, 0, 0, 0] : List ℚ).length :=
  of_decide_eq_true (by with_unfolding_all rfl)

/-- C9 (amended): the detectors and matchers of `gu_piao_5M_data.py` and
`gu_piao_5M_data_bixia.py` do fail fast with a `ValueError` and produce no
result when any of the arrays they take differ in length: `identify_turns`
(which takes only `high` and `low`) whenever `high` and `low` differ, and
both `three_buy_variant` matchers whenever `high`/`low` differ or the
turning-point array `frac` differs from them. -/
theorem matchers_error_on_length_mismatch (frac high low : List ℚ)
    (h : low.length ≠ high.length ∨ frac.length ≠ high.length) :
    (low.length ≠ high.length →
      gu_piao_5M_data.identify_turns high low =
        .error "ValueError: high and low must have the same length") ∧
    gu_piao_5M_data.three_buy_variant frac high low =
      .error "ValueError: frac, high, low must have the same length" ∧
    gu_piao_5M_data_bixia.three_buy_variant frac high low =
      .error "ValueError: frac, high, low must have the same length" := by
  refine ⟨fun hl => ?_, ?_, ?_⟩
  · rw [gu_piao_5M_data.identify_turns, if_pos hl]
  · rw [gu_piao_5M_data.three_buy_variant, if_pos h]
  · rw [gu_piao_5M_data_bixia.three_buy_variant, if_pos h]

/-- C9 witness: the fail-fast lemma at concrete mismatched calls — the
detector on a `high`/`low` mismatch, and both matchers on a turning-point
array longer than equal-length `high`/`low`. -/
theorem matchers_error_on_length_mismatch_witness :
    gu_piao_5M_data.identify_turns [1] [] =
      .error "ValueError: high and low must have the same length" ∧
    gu_piao_5M_data.three_buy_variant [0, 0] [1] [2] =
      .error "ValueError: frac, high, low must have the same length" ∧
    gu_piao_5M_data_bixia.three_buy_variant [0, 0] [1] [2] =
      .error "ValueError: frac, high, low must have the same length" :=
  ⟨(matchers_error_on_length_mismatch [1] [1] [] (Or.inl (by decide))).1 (by decide),
   (matchers_error_on_length_mismatch [0, 0] [1] [2] (Or.inr (by decide))).2.1,
   (matchers_error_on_length_mismatch [0, 0] [1] [2] (Or.inr (by decide))).2.2⟩

/-! ## Claim C4 — peak priority in candidate marking -/

/-- C4 counterexample: in `gu_piao_5M_data.py` the peak and trough tests are
independent `if`s, so bar 9 of this input — whose high dominates its
neighbourhood and whose low does too — is marked both as a peak and as a
trough, contradicting "marked only as a Peak and never as a Trough". -/
theorem marking_5M_both_kinds_counterexample :
    ((9 : ℕ), (1 : ℤ)) ∈ gu_piao_5M_data.candidateTurns
      [50, 40, 40, 40, 10, 40, 40, 40, 40, 100, 40, 40, 40, 100]
      [10, 10, 10, 10, 2, 10, 10, 10, 10, 1, 10, 10, 10, 10] ∧
    ((9 : ℕ), (-1 : ℤ)) ∈ gu_piao_5M_data.candidateTurns
      [50, 40, 40, 40, 10, 40, 40, 40, 40, 100, 40, 40, 40, 100]
      [10, 10, 10, 10, 2, 10, 10, 10, 10, 1, 10, 10, 10, 10] :=
  of_decide_eq_true (by with_unfolding_all rfl)

/-- C4 (amended): in `gupiaojichu.py` the interior marking uses `elif`, so an
interior bar satisfying the Peak predicate is marked as a Peak and never as a
Trough, even if its low also satisfies the Trough predicate. -/
theorem marking_gupiaojichu_peak_priority (merged_bars : List gupiaojichu.MergedBar)
    (i : ℕ) (h4 : 4 ≤ i) (hlt : i < merged_bars.length - 4)
    (hpk : gupiaojichu.peakCondI merged_bars i) :
    ((i : ℕ), (1 : ℤ)) ∈ gupiaojichu.candidateTurns merged_bars ∧
    ((i : ℕ), (-1 : ℤ)) ∉ gupiaojichu.candidateTurns merged_bars := by
  have hmark : gupiaojichu.markInterior merged_bars i = some (i, 1) := by
    rw [gupiaojichu.markInterior, if_pos hpk]
  have hrange : i ∈ List.range' 4 (merged_bars.length - 4 - 4) := by
    rw [List.mem_range'_1]
    omega
  constructor
  · exact List.mem_append_left _ (List.mem_filterMap.mpr ⟨i, hrange, hmark⟩)
  · intro hmem
    rcases List.mem_append.mp hmem with hmem | hmem
    · obtain ⟨a, _, ha⟩ := List.mem_filterMap.mp hmem
      have hfst : a = i := by
        rw [gupiaojichu.markInterior] at ha
        split_ifs at ha <;> simpa using congrArg Prod.fst (Option.some.inj ha)
      rw [hfst, hmark] at ha
      exact absurd (congrArg Prod.snd (Option.some.inj ha)) (by simp)
    · obtain ⟨a, haR, ha⟩ := List.mem_filterMap.mp hmem
      have hfst : a = i := by
        rw [gupiaojichu.markTrailing] at ha
        split_ifs at ha <;> simpa using congrArg Prod.fst (Option.some.inj ha)
      rw [List.mem_range'_1] at haR
      omega

/-- C4 witness: peak priority at bar 4 of a concrete 9-bar merged sequence
whose middle bar dominates both windows. -/
theorem marking_gupiaojichu_peak_priority_witness :
    ((4 : ℕ), (1 : ℤ)) ∈ gupiaojichu.candidateTurns
      [⟨1, 0, 0, false⟩, ⟨2, 1, 1, false⟩, ⟨3, 2, 2, false⟩, ⟨4, 3, 3, false⟩,
        ⟨10, 9, 4, false⟩, ⟨4, 3, 5, false⟩, ⟨3, 2, 6, false⟩, ⟨2, 1, 7, false⟩,
        ⟨1, 0, 8, false⟩] ∧
    ((4 : ℕ), (-1 : ℤ)) ∉ gupiaojichu.candidateTurns
      [⟨1, 0, 0, false⟩, ⟨2, 1, 1, false⟩, ⟨3, 2, 2, false⟩, ⟨4, 3, 3, false⟩,
        ⟨10, 9, 4, false⟩, ⟨4, 3, 5, false⟩, ⟨3, 2, 6, false⟩, ⟨2, 1, 7, false⟩,
        ⟨1, 0, 8, false⟩] :=
  marking_gupiaojichu_peak_priority _ 4 (by decide) (by decide)
    (of_decide_eq_true (by with_unfolding_all rfl))

/-! ## Claim C10 — all-zero when merging leaves at most `2*W` bars -/

/-- C10: with at least 6 input bars, whenever containment merging leaves at
most `window_size * 2 = 8` merged bars, `identify_turns` returns the all-zero
array of the input length. -/
theorem identify_turns_small_merge_all_zero (data_len : ℕ) (high low : List ℚ)
    (merged_bars : List gupiaojichu.MergedBar) (h6 : 6 ≤ data_len)
    (hm : gupiaojichu.merge_contained_bars high low data_len = .ok merged_bars)
    (hlen : merged_bars.length ≤ 8) :
    gupiaojichu.identify_turns data_len high low = .ok (List.replicate data_len 0) := by
  rw [gupiaojichu.identify_turns]
  simp [hm, Nat.not_lt.mpr h6, hlen, Bind.bind, Except.bind, Pure.pure, Except.pure]

/-- C10 witness: six strictly rising bars merge to six bars (`≤ 8`), so the
detector reports no turns. -/
theorem identify_turns_small_merge_all_zero_witness :
    gupiaojichu.identify_turns 6 [1, 2, 3, 4, 5, 6] [0, 1, 2, 3, 4, 5] =
      .ok (List.replicate 6 0) :=
  identify_turns_small_merge_all_zero 6 [1, 2, 3, 4, 5, 6] [0, 1, 2, 3, 4, 5]
    [⟨1, 0, 0, false⟩, ⟨2, 1, 1, false⟩, ⟨3, 2, 2, false⟩, ⟨4, 3, 3, false⟩,
      ⟨5, 4, 4, false⟩, ⟨6, 5, 5, false⟩]
    (by decide) (by with_unfolding_all rfl) (by decide)

/-! ## Claims C5 and C3 — pattern matcher characterizations -/

theorem downSorted_zero (frac : List ℚ) : downSorted frac 0 = [] := by
  simp [downSorted, downSegmentsOf, turnPointsOf, buildSegments, sortByEndDesc]

/-- C5: the three-buy-basic matcher emits `+1` at the last index (and `0`
elsewhere) exactly when at least three down-segments exist, their troughs
strictly decrease toward the present, and the final bar's high strictly
exceeds the starting peak of one of the two most-recent down-segments; in
every other case it returns the all-zero array. -/
theorem three_buy_variant_characterization (frac high low : List ℚ)
    (hlow : low.length = high.length) (hfrac : frac.length = high.length) :
    gu_piao_5M_data.three_buy_variant frac high low =
      .ok (if threeBuyCond frac high low
        then (List.replicate high.length (0 : ℚ)).set (high.length - 1) 1
        else List.replicate high.length 0) := by
  rw [gu_piao_5M_data.three_buy_variant, if_neg (by simp [hlow, hfrac])]
  by_cases hc : threeBuyCond frac high low
  · rw [if_pos hc]
    unfold threeBuyCond at hc
    obtain ⟨hc1, hc2, hc3, hc4⟩ := hc
    have hn : ¬ high.length ≤ 0 := by
      intro h0
      rw [Nat.le_zero.mp h0, downSorted_zero] at hc1
      simp at hc1
    rw [if_neg hn, if_neg (Nat.not_lt.mpr hc1), if_neg (not_le.mpr hc2),
      if_neg (not_le.mpr hc3)]
    rcases hc4 with h | h
    · rw [if_neg (fun hab => absurd hab.1 (not_le.mpr h))]
    · rw [if_neg (fun hab => absurd hab.2 (not_le.mpr h))]
  · rw [if_neg hc]
    split_ifs with g1 g2 g3 g4 g5
    · rfl
    · rfl
    · rfl
    · rfl
    · rfl
    · exact absurd
        ⟨Nat.le_of_not_lt g2, not_le.mp g3, not_le.mp g4, by
          rcases not_and_or.mp g5 with h | h
          · exact Or.inl (not_le.mp h)
          · exact Or.inr (not_le.mp h)⟩ hc

/-- C5 witness: the spec's scenario — troughs `[5,4,3]` on three
down-segments and a final bar breaking the most recent starting peak —
yields `+1` at the last index. -/
theorem three_buy_variant_characterization_witness :
    gu_piao_5M_data.three_buy_variant [1, -1, 1, -1, 1, -1, 0, 0]
      [10, 0, 9, 0, 8, 0, 0, 100] [0, 5, 0, 4, 0, 3, 0, 0] =
      .ok (if threeBuyCond [1, -1, 1, -1, 1, -1, 0, 0] [10, 0, 9, 0, 8, 0, 0, 100]
          [0, 5, 0, 4, 0, 3, 0, 0]
        then (List.replicate 8 (0 : ℚ)).set 7 1
        else List.replicate 8 0) :=
  three_buy_variant_characterization [1, -1, 1, -1, 1, -1, 0, 0]
    [10, 0, 9, 0, 8, 0, 0, 100] [0, 5, 0, 4, 0, 3, 0, 0] rfl rfl

/-- C3 counterexample: four down-segments whose values satisfy every
condition of the claim — strictly lower middle trough with non-higher middle
starting peak, newest starting peak strictly above both older ones, and
newest trough strictly *below* the previous trough — yet the bi-xia matcher
returns the all-zero array: the code requires the newest trough to be
strictly *above* the previous trough (`latest_low <= prev_low` rejects). -/
theorem bixia_counterexample :
    bixiaClaimCond [1, -1, 1, -1, 1, -1, 1, -1, 0, 0, 0, 0, 0, 0, 0, 0]
      [30, 0, 20, 0, 19, 0, 25, 0, 0, 0, 0, 0, 0, 0, 0, 0]
      [0, 12, 0, 10, 0, 8, 0, 5, 0, 0, 0, 0, 0, 0, 0, 0] ∧
    gu_piao_5M_data_bixia.three_buy_variant
      [1, -1, 1, -1, 1, -1, 1, -1, 0, 0, 0, 0, 0, 0, 0, 0]
      [30, 0, 20, 0, 19, 0, 25, 0, 0, 0, 0, 0, 0, 0, 0, 0]
      [0, 12, 0, 10, 0, 8, 0, 5, 0, 0, 0, 0, 0, 0, 0, 0] =
      .ok (List.replicate 16 0) ∧
    (List.replicate 16 (0 : ℚ)).getD 15 0 ≠ 1 :=
  of_decide_eq_true (by with_unfolding_all rfl)

/-- C3 (amended): the bi-xia matcher emits `+1` at the last bar exactly when
at least 4 down-segments exist, the middle of the three most recent has a
strictly lower trough and non-higher starting peak than the oldest, the
newest starting peak is `≥` (not strictly above) both older starting peaks,
and the newest trough is strictly *above* (not below) the previous trough;
otherwise the all-zero array. -/
theorem bixia_characterization (frac high low : List ℚ)
    (hlow : low.length = high.length) (hfrac : frac.length = high.length) :
    gu_piao_5M_data_bixia.three_buy_variant frac high low =
      .ok (if bixiaCodeCond frac high low
        then (List.replicate high.length (0 : ℚ)).set (high.length - 1) 1
        else List.replicate high.length 0) := by
  rw [gu_piao_5M_data_bixia.three_buy_variant, if_neg (by simp [hlow, hfrac])]
  by_cases hc : bixiaCodeCond frac high low
  · rw [if_pos hc]
    unfold bixiaCodeCond at hc
    obtain ⟨hc1, hc2, hc3, hc4, hc5, hc6⟩ := hc
    have hn : ¬ high.length ≤ 0 := by
      intro h0
      rw [Nat.le_zero.mp h0, downSorted_zero] at hc1
      simp at hc1
    rw [if_neg hn, if_neg (Nat.not_lt.mpr hc1),
      if_neg (not_or.mpr ⟨not_le.mpr hc2, not_lt.mpr hc3⟩),
      if_neg (not_or.mpr ⟨not_lt.mpr hc4, not_lt.mpr hc5⟩),
      if_neg (not_le.mpr hc6)]
  · rw [if_neg hc]
    split_ifs with g1 g2 g3 g4 g5
    · rfl
    · rfl
    · rfl
    · rfl
    · rfl
    · exact absurd
        ⟨Nat.le_of_not_lt g2, not_le.mp (not_or.mp g3).1, not_lt.mp (not_or.mp g3).2,
          not_lt.mp (not_or.mp g4).1, not_lt.mp (not_or.mp g4).2, not_le.mp g5⟩ hc

/-- C3 witness: the amended characterization at an input whose newest trough
is strictly above the previous trough, firing the signal. -/
theorem bixia_characterization_witness :
    gu_piao_5M_data_bixia.three_buy_variant
      [1, -1, 1, -1, 1, -1, 1, -1, 0, 0, 0, 0, 0, 0, 0, 0]
      [30, 0, 20, 0, 19, 0, 25, 0, 0, 0, 0, 0, 0, 0, 0, 0]
      [0, 12, 0, 10, 0, 8, 0, 9, 0, 0, 0, 0, 0, 0, 0, 0] =
      .ok (if bixiaCodeCond [1, -1, 1, -1, 1, -1, 1, -1, 0, 0, 0, 0, 0, 0, 0, 0]
          [30, 0, 20, 0, 19, 0, 25, 0, 0, 0, 0, 0, 0, 0, 0, 0]
          [0, 12, 0, 10, 0, 8, 0, 9, 0, 0, 0, 0, 0, 0, 0, 0]
        then (List.replicate 16 (0 : ℚ)).set 15 1
        else List.replicate 16 0) :=
  bixia_characterization [1, -1, 1, -1, 1, -1, 1, -1, 0, 0, 0, 0, 0, 0, 0, 0]
    [30, 0, 20, 0, 19, 0, 25, 0, 0, 0, 0, 0, 0, 0, 0, 0]
    [0, 12, 0, 10, 0, 8, 0, 9, 0, 0, 0, 0, 0, 0, 0, 0] rfl rfl

/-! ## Claim C1 — alternation of the emitted turning points -/

/-- C1 counterexample: in `gu_piao_5M_data.identify_turns`, bar 9 (marked
both peak and trough) produces confirmed turns `(4,-1)`, `(9,1)`, `(9,-1)`;
the two writes to index 9 leave `-1`, so the output has consecutive non-zero
entries `-1` (index 4) and `-1` (index 9) — equal signs, refuting the
alternation claim for this detector. -/
theorem identify_turns_5M_alternation_counterexample :
    gu_piao_5M_data.identify_turns
      [50, 40, 40, 40, 10, 40, 40, 40, 40, 100, 40, 40, 40, 100]
      [10, 10, 10, 10, 2, 10, 10, 10, 10, 1, 10, 10, 10, 10] =
      .ok [0, 0, 0, 0, -1, 0, 0, 0, 0, -1, 0, 0, 0, 0] := by
  with_unfolding_all rfl

/-! ## Claim C8 — merged bars keep `high ≥ low` -/

theorem readIdx_ok {xs : List ℚ} {i : ℕ} {v : ℚ}
    (h : gupiaojichu.readIdx xs i = .ok v) : v = xs.getD i 0 := by
  unfold gupiaojichu.readIdx at h
  cases heq : xs.get? i with
  | none => rw [heq] at h; exact absurd h (by simp)
  | some w =>
    rw [heq] at h
    cases h
    rw [List.getD_eq_getElem?_getD, ← List.get?_eq_getElem?, heq]
    rfl

theorem mergeFoldlM_ok {high low : List ℚ} :
    ∀ (l : List ℕ) (init r : List gupiaojichu.MergedBar),
    (l.foldlM (fun merged i => do
        let curr_high ← gupiaojichu.readIdx high i
        let curr_low ← gupiaojichu.readIdx low i
        pure (gupiaojichu.mergeStep merged curr_high curr_low i)) init) = .ok r →
    r = l.foldl
      (fun merged i => gupiaojichu.mergeStep merged (high.getD i 0) (low.getD i 0) i) init
  | [], init, r => by
    intro h
    simp only [List.foldlM] at h
    cases h
    rfl
  | a :: l, init, r => by
    intro h
    simp only [List.foldlM] at h
    cases hH : gupiaojichu.readIdx high a with
    | error e => rw [hH] at h; exact absurd h (by simp [Bind.bind, Except.bind])
    | ok vh =>
      rw [hH] at h
      cases hL : gupiaojichu.readIdx low a with
      | error e => rw [hL] at h; exact absurd h (by simp [Bind.bind, Except.bind])
      | ok vl =>
        rw [hL] at h
        simp only [Bind.bind, Except.bind, Pure.pure, Except.pure] at h
        rw [List.foldl_cons, ← readIdx_ok hH, ← readIdx_ok hL]
        exact mergeFoldlM_ok l _ r h

/-- A successful run of `merge_contained_bars` computes `mergePure`. -/
theorem merge_ok_eq_pure {high low : List ℚ} {data_len : ℕ}
    {m : List gupiaojichu.MergedBar}
    (h : gupiaojichu.merge_contained_bars high low data_len = .ok m) :
    m = gupiaojichu.mergePure high low data_len := by
  unfold gupiaojichu.merge_contained_bars at h
  by_cases h0 : data_len = 0
  · rw [if_pos h0] at h
    cases h
    simp [gupiaojichu.mergePure, h0]
  · rw [if_neg h0] at h
    cases hF : (List.range data_len).foldlM (fun merged i => do
        let curr_high ← gupiaojichu.readIdx high i
        let curr_low ← gupiaojichu.readIdx low i
        pure (gupiaojichu.mergeStep merged curr_high curr_low i))
        ([] : List gupiaojichu.MergedBar) with
    | error e => rw [hF] at h; exact absurd h (by simp [Bind.bind, Except.bind, Pure.pure, Except.pure])
    | ok rev =>
      rw [hF] at h
      simp only [Bind.bind, Except.bind, Pure.pure, Except.pure] at h
      cases h
      rw [gupiaojichu.mergePure, ← mergeFoldlM_ok (List.range data_len) [] rev hF]

set_option maxHeartbeats 1000000 in
theorem mergeStep_high_ge_low (ms : List gupiaojichu.MergedBar) (ch cl : ℚ) (i : ℕ)
    (hms : ∀ b ∈ ms, b.low ≤ b.high) (hc : cl ≤ ch) :
    ∀ b ∈ gupiaojichu.mergeStep ms ch cl i, b.low ≤ b.high := by
  cases ms with
  | nil =>
    intro b hb
    rw [gupiaojichu.mergeStep] at hb
    rw [List.mem_singleton.mp hb]
    exact hc
  | cons last_bar rest =>
    have hlast := hms last_bar (List.mem_cons_self _ _)
    have hrest : ∀ b ∈ rest, b.low ≤ b.high :=
      fun b hb => hms b (List.mem_cons_of_mem _ hb)
    cases rest with
    | nil =>
      intro b hb
      rw [gupiaojichu.mergeStep] at hb
      split_ifs at hb <;>
        rcases List.mem_cons.mp hb with rfl | hb <;>
        first
          | exact hlast
          | exact hc
          | exact absurd hb (List.not_mem_nil _)
          | exact hms _ hb
          | exact le_trans (min_le_left _ _) (le_trans hlast (le_max_left _ _))
    | cons prev_last rest2 =>
      intro b hb
      rw [gupiaojichu.mergeStep] at hb
      split_ifs at hb <;>
        rcases List.mem_cons.mp hb with rfl | hb <;>
        first
          | exact hlast
          | exact hc
          | exact hms _ hb
          | exact hrest _ hb
          | exact max_le_max hlast hc
          | exact min_le_min hlast hc
          | exact le_trans (min_le_left _ _) (le_trans hlast (le_max_left _ _))

theorem mergePure_high_ge_low (high low : List ℚ) (data_len : ℕ)
    (h : ∀ i, i < data_len → low.getD i 0 ≤ high.getD i 0) :
    ∀ b ∈ gupiaojichu.mergePure high low data_len, b.low ≤ b.high := by
  induction data_len with
  | zero => simp [gupiaojichu.mergePure]
  | succ k ih =>
    intro b hb
    rw [gupiaojichu.mergePure, List.mem_reverse, List.range_succ, List.foldl_append,
      List.foldl_cons, List.foldl_nil] at hb
    refine mergeStep_high_ge_low _ _ _ _ ?_ (h k (Nat.lt_succ_self k)) b hb
    intro c hcm
    exact ih (fun i hi => h i (Nat.lt_succ_of_lt hi)) c
      (by rw [gupiaojichu.mergePure, List.mem_reverse]; exact hcm)

/-- C8: if every input bar has `high[i] ≥ low[i]`, every `MergedBar` returned
by `merge_contained_bars` satisfies `high ≥ low`, whichever merge branch
produced it. -/
theorem merge_contained_bars_high_ge_low (high low : List ℚ) (data_len : ℕ)
    (m : List gupiaojichu.MergedBar)
    (hin : ∀ i, i < data_len → low.getD i 0 ≤ high.getD i 0)
    (hm : gupiaojichu.merge_contained_bars high low data_len = .ok m) :
    ∀ b ∈ m, b.low ≤ b.high := by
  rw [merge_ok_eq_pure hm]
  exact mergePure_high_ge_low high low data_len hin

/-- C8 witness: a five-bar input mixing flat bars, containment and trend
branches; all merged bars keep `high ≥ low`. -/
theorem merge_contained_bars_high_ge_low_witness :
    (⟨25, 6, 2, false⟩ : gupiaojichu.MergedBar).low ≤
      (⟨25, 6, 2, false⟩ : gupiaojichu.MergedBar).high :=
  merge_contained_bars_high_ge_low [3, 20, 25, 24, 24] [3, 5, 4, 6, 5] 5
    [⟨3, 3, 0, true⟩, ⟨25, 6, 2, false⟩, ⟨24, 5, 4, false⟩]
    (by intro i hi; interval_cases i <;> norm_num)
    (by with_unfolding_all rfl)
    ⟨25, 6, 2, false⟩ (List.mem_cons_of_mem _ (List.mem_cons_self _ _))

/-! ## Claim C7 — sliding-window extrema -/

/-- On a list that is pairwise `R`-related, a predicate that propagates
backwards along `R` is dropped from the front exactly as a filter. -/
theorem dropWhile_eq_filter_of_pairwise {α : Type} {R : α → α → Prop} :
    ∀ (l : List α) (p : α → Bool), l.Pairwise R →
    (∀ a b, R a b → p b = true → p a = true) →
    l.dropWhile p = l.filter (fun x => !p x)
  | [], p, _, _ => rfl
  | x :: xs, p, hl, hmono => by
    cases hp : p x with
    | true =>
      rw [List.dropWhile_cons_of_pos hp, List.filter_cons_of_neg (by simp [hp]),
        dropWhile_eq_filter_of_pairwise xs p hl.of_cons hmono]
    | false =>
      rw [List.dropWhile_cons_of_neg (by simp [hp]), List.filter_cons_of_pos (by simp [hp])]
      have hxs : ∀ y ∈ xs, (!p y) = true := by
        intro y hy
        cases hq : p y with
        | true =>
          exact absurd (hmono x y (List.rel_of_pairwise_cons hl hy) hq) (by simp [hp])
        | false => simp
      rw [List.filter_eq_self.mpr hxs]

/-- `arr[j]` strictly dominates every later entry of the window `(j, i]`. -/
def domB (arr : List ℚ) (i j : ℕ) : Bool :=
  (List.range' (j + 1) (i - j)).all (fun k => decide (arr.getD k 0 < arr.getD j 0))

/-- The indices the monotonic deque of `sliding_max` holds after processing
index `i`: window members strictly dominating everything after them. -/
def domList (arr : List ℚ) (window_size i : ℕ) : List ℕ :=
  (List.range (i + 1)).filter (fun j => decide (i < j + window_size) && domB arr i j)

theorem domB_iff (arr : List ℚ) (i j : ℕ) :
    domB arr i j = true ↔ ∀ k, j < k → k ≤ i → arr.getD k 0 < arr.getD j 0 := by
  rw [domB, List.all_eq_true]
  constructor
  · intro h k hjk hki
    have : k ∈ List.range' (j + 1) (i - j) := by
      rw [List.mem_range'_1]
      omega
    simpa using h k this
  · intro h k hk
    rw [List.mem_range'_1] at hk
    simpa using h k (by omega) (by omega)

theorem mem_domList (arr : List ℚ) (W i j : ℕ) :
    j ∈ domList arr W i ↔
      j ≤ i ∧ i < j + W ∧ ∀ k, j < k → k ≤ i → arr.getD k 0 < arr.getD j 0 := by
  rw [domList, List.mem_filter, List.mem_range, Bool.and_eq_true, decide_eq_true_eq,
    domB_iff]
  exact ⟨fun h => ⟨by omega, h.2.1, h.2.2⟩, fun h => ⟨by omega, h.2.1, h.2.2⟩⟩


theorem domList_sorted (arr : List ℚ) (W i : ℕ) :
    (domList arr W i).Pairwise (· < ·) :=
  (List.pairwise_lt_range _).filter _

theorem domList_val_desc (arr : List ℚ) (W i : ℕ) :
    (domList arr W i).Pairwise (fun a b => arr.getD b 0 < arr.getD a 0) := by
  refine (domList_sorted arr W i).imp_of_mem ?_
  intro a b ha hb hab
  rw [mem_domList] at ha hb
  exact ha.2.2 b hab hb.1

theorem dqStep_domList_zero (arr : List ℚ) (W : ℕ) (hW : 1 ≤ W) :
    ((([] : List ℕ).dropWhile (fun j => decide (j + W ≤ 0))).reverse.dropWhile
        (fun j => decide (arr.getD j 0 ≤ arr.getD 0 0))).reverse ++ [0] =
      domList arr W 0 := by
  have h0 : 0 < W := hW
  simp [domList, domB, h0, List.range_succ]

theorem dqStep_domList (arr : List ℚ) (W : ℕ) (hW : 1 ≤ W) (i : ℕ) :
    (((domList arr W i).dropWhile (fun j => decide (j + W ≤ i + 1))).reverse.dropWhile
        (fun j => decide (arr.getD j 0 ≤ arr.getD (i + 1) 0))).reverse ++ [i + 1] =
      domList arr W (i + 1) := by
  have hA : (domList arr W i).dropWhile (fun j => decide (j + W ≤ i + 1)) =
      (domList arr W i).filter (fun j => !decide (j + W ≤ i + 1)) := by
    refine dropWhile_eq_filter_of_pairwise _ _ (domList_sorted arr W i) ?_
    intro a b hab hb
    simp only [decide_eq_true_eq] at hb ⊢
    omega
  have hAdesc : ((domList arr W i).filter (fun j => !decide (j + W ≤ i + 1))).reverse.Pairwise
      (fun a b => arr.getD a 0 < arr.getD b 0) :=
    List.pairwise_reverse.mpr ((domList_val_desc arr W i).filter _)
  have hB : ((domList arr W i).filter (fun j => !decide (j + W ≤ i + 1))).reverse.dropWhile
        (fun j => decide (arr.getD j 0 ≤ arr.getD (i + 1) 0)) =
      ((domList arr W i).filter (fun j => !decide (j + W ≤ i + 1))).reverse.filter
        (fun j => !decide (arr.getD j 0 ≤ arr.getD (i + 1) 0)) := by
    refine dropWhile_eq_filter_of_pairwise _ _ hAdesc ?_
    intro a b hab hb
    simp only [decide_eq_true_eq] at hb ⊢
    linarith
  rw [hA, hB, ← List.filter_reverse, List.reverse_reverse, List.filter_filter,
    domList, List.filter_filter]
  have hstep : (List.range (i + 1)).filter
        (fun j => (!decide (arr.getD j 0 ≤ arr.getD (i + 1) 0) &&
          !decide (j + W ≤ i + 1)) && (decide (i < j + W) && domB arr i j)) =
      (List.range (i + 1)).filter
        (fun j => decide (i + 1 < j + W) && domB arr (i + 1) j) := by
    refine List.filter_congr ?_
    intro j hj
    rw [List.mem_range] at hj
    rw [Bool.eq_iff_iff]
    simp only [Bool.and_eq_true, Bool.not_eq_true', decide_eq_true_eq,
      decide_eq_false_iff_not, domB_iff, not_le]
    constructor
    · rintro ⟨⟨hval, hwin⟩, -, hdom⟩
      refine ⟨by omega, ?_⟩
      intro k hk1 hk2
      rcases Nat.lt_or_ge k (i + 1) with hk | hk
      · exact hdom k hk1 (by omega)
      · have hki : k = i + 1 := by omega
        rw [hki]
        exact hval
    · rintro ⟨hwin, hdom⟩
      refine ⟨⟨hdom (i + 1) (by omega) (le_refl _), by omega⟩, by omega, ?_⟩
      intro k hk1 hk2
      exact hdom k hk1 (by omega)
  rw [hstep, domList,
    show List.range (i + 1 + 1) = List.range (i + 1) ++ [i + 1] from List.range_succ (i + 1),
    List.filter_append]
  congr 1
  have h1 : (decide (i + 1 < i + 1 + W) && domB arr (i + 1) (i + 1)) = true := by
    rw [Bool.and_eq_true, decide_eq_true_eq, domB_iff]
    exact ⟨by omega, fun k hk1 hk2 => absurd hk2 (by omega)⟩
  rw [List.filter_cons, List.filter_nil, if_pos h1]

theorem maximum_le_coe {l : List ℚ} {b : ℚ} (h : ∀ a ∈ l, a ≤ b) :
    l.maximum ≤ (b : WithBot ℚ) := by
  induction l with
  | nil => simp [List.maximum_nil]
  | cons a l ih =>
    rw [List.maximum_cons]
    exact max_le (by exact_mod_cast h a (List.mem_cons_self _ _))
      (ih fun x hx => h x (List.mem_cons_of_mem _ hx))

theorem domList_ne_nil (arr : List ℚ) (W i : ℕ) (hW : 1 ≤ W) :
    domList arr W i ≠ [] := by
  have : i ∈ domList arr W i := by
    rw [mem_domList]
    exact ⟨le_refl _, by omega, fun k hk1 hk2 => absurd hk2 (by omega)⟩
  exact List.ne_nil_of_mem this

theorem domList_head_max (arr : List ℚ) (W i : ℕ) (hW : 1 ≤ W) (hWi : W - 1 ≤ i) :
    ((List.range' (i + 1 - W) W).map (fun j => arr.getD j 0)).maximum =
      ((arr.getD ((domList arr W i).headD 0) 0 : ℚ) : WithBot ℚ) := by
  obtain ⟨h, t, heq⟩ := List.exists_cons_of_ne_nil (domList_ne_nil arr W i hW)
  rw [heq]
  simp only [List.headD_cons]
  have hmem : h ∈ domList arr W i := heq ▸ List.mem_cons_self _ _
  rw [mem_domList] at hmem
  obtain ⟨hh1, hh2, hdom⟩ := hmem
  have hmin : ∀ x ∈ domList arr W i, h ≤ x := by
    intro x hx
    rw [heq] at hx
    rcases List.mem_cons.mp hx with rfl | hx
    · exact le_refl _
    · exact le_of_lt (List.rel_of_pairwise_cons (heq ▸ domList_sorted arr W i) hx)
  have key : ∀ d k, i - k = d → i + 1 - W ≤ k → k ≤ i → arr.getD k 0 ≤ arr.getD h 0 := by
    intro d
    induction d using Nat.strong_induction_on with
    | _ d ih =>
      intro k hd hk1 hk2
      rcases Nat.lt_or_ge k h with hkh | hkh
      · have hknot : k ∉ domList arr W i := fun hk => absurd (hmin k hk) (by omega)
        have hnd : ¬ (k ≤ i ∧ i < k + W ∧
            ∀ k', k < k' → k' ≤ i → arr.getD k' 0 < arr.getD k 0) :=
          fun hc => hknot ((mem_domList arr W i k).mpr hc)
        push_neg at hnd
        obtain ⟨k', hk'1, hk'2, hk'3⟩ := hnd hk2 (by omega)
        exact le_trans hk'3 (ih (i - k') (by omega) k' rfl (by omega) hk'2)
      · rcases Nat.eq_or_lt_of_le hkh with heq2 | hlt
        · rw [← heq2]
        · exact le_of_lt (hdom k hlt hk2)
  refine le_antisymm (maximum_le_coe ?_) ?_
  · intro a ha
    obtain ⟨j, hj, rfl⟩ := List.mem_map.mp ha
    rw [List.mem_range'_1] at hj
    exact key (i - j) j rfl (by omega) (by omega)
  · refine List.le_maximum_of_mem' (List.mem_map_of_mem _ ?_)
    rw [List.mem_range'_1]
    omega

theorem smGo_spec (arr : List ℚ) (W : ℕ) (hW : 1 ≤ W) :
    ∀ n i dq, n = arr.length - i → i ≤ arr.length →
    dq = (if i = 0 then [] else domList arr W (i - 1)) →
    gupiaojichu.smGo arr W dq i = (List.range' i (arr.length - i)).map
      (fun t => if W - 1 ≤ t then
        ((arr.getD ((domList arr W t).headD 0) 0 : ℚ) : WithBot ℚ) else ⊥) := by
  intro n
  induction n with
  | zero =>
    intro i dq hn hi _hdq
    have hge : ¬ i < arr.length := by omega
    rw [gupiaojichu.smGo.eq_def, dif_neg hge, show arr.length - i = 0 from by omega]
    simp
  | succ m ih =>
    intro i dq hn hi hdq
    have hlt : i < arr.length := by omega
    rw [gupiaojichu.smGo.eq_def, dif_pos hlt]
    simp only []
    have hdq3 : ((dq.dropWhile (fun j => decide (j + W ≤ i))).reverse.dropWhile
        (fun j => decide (arr.getD j 0 ≤ arr.getD i 0))).reverse ++ [i] =
        domList arr W i := by
      cases i with
      | zero =>
        rw [if_pos rfl] at hdq
        rw [hdq]
        exact dqStep_domList_zero arr W hW
      | succ k =>
        rw [if_neg (Nat.succ_ne_zero k), Nat.succ_sub_one] at hdq
        rw [hdq]
        exact dqStep_domList arr W hW k
    rw [hdq3, show arr.length - i = (arr.length - (i + 1)) + 1 from by omega,
      List.range'_succ, List.map_cons]
    congr 1
    exact ih (i + 1) (domList arr W i) (by omega) (by omega)
      (by rw [if_neg (Nat.succ_ne_zero i), Nat.succ_sub_one])

theorem sliding_max_spec (arr : List ℚ) (W : ℕ) (hW : 1 ≤ W) :
    (gupiaojichu.sliding_max arr W).length = arr.length ∧
    ∀ i, i < arr.length → (gupiaojichu.sliding_max arr W).getD i ⊥ =
      (if W - 1 ≤ i then
        ((List.range' (i + 1 - W) W).map (fun j => arr.getD j 0)).maximum
      else ⊥) := by
  have hs := smGo_spec arr W hW arr.length 0 [] (by omega) (by omega) (by simp)
  rw [gupiaojichu.sliding_max, hs]
  constructor
  · simp
  · intro i hi
    rw [show List.range' 0 (arr.length - 0) = List.range arr.length from by
      rw [Nat.sub_zero, List.range_eq_range']]
    rw [List.getD_eq_getElem?_getD, List.getElem?_map, List.getElem?_range hi]
    simp only [Option.map_some', Option.getD_some]
    split_ifs with hWi
    · exact (domList_head_max arr W i hW hWi).symm
    · rfl

/-- Transport between the `-inf`-sentinel world of `sliding_max` and the
`+inf`-sentinel world of `sliding_min` by negation. -/
def botNeg : WithBot ℚ → WithTop ℚ
  | none => ⊤
  | some a => ((-a : ℚ) : WithTop ℚ)

theorem botNeg_coe (a : ℚ) : botNeg (a : WithBot ℚ) = ((-a : ℚ) : WithTop ℚ) := rfl

theorem getD_map_neg (arr : List ℚ) (j : ℕ) :
    (arr.map (fun x : ℚ => -x)).getD j 0 = -(arr.getD j 0) := by
  rw [List.getD_eq_getElem?_getD, List.getD_eq_getElem?_getD, List.getElem?_map]
  cases h : arr[j]? with
  | none => simp
  | some v => simp

theorem botNeg_maximum_map_neg (l : List ℚ) :
    botNeg ((l.map (fun x : ℚ => -x)).maximum) = l.minimum := by
  induction l with
  | nil => rfl
  | cons a l ih =>
    rw [List.map_cons, List.maximum_cons, List.minimum_cons, ← ih]
    cases hM : (l.map (fun x : ℚ => -x)).maximum with
    | bot =>
      show botNeg (max _ ⊥) = _
      rw [max_bot_right, botNeg_coe, neg_neg]
      show _ = min _ ⊤
      rw [min_comm, min_top_left]
    | coe m =>
      show botNeg (max ((- a : ℚ) : WithBot ℚ) (m : WithBot ℚ)) = _
      rw [← WithBot.coe_max, botNeg_coe, botNeg_coe]
      show ((-max (-a) m : ℚ) : WithTop ℚ) = min ((a : ℚ) : WithTop ℚ) ((-m : ℚ) : WithTop ℚ)
      rw [← WithTop.coe_min]
      congr 1
      rw [neg_sup, neg_neg]

theorem snGo_eq_smGo_neg (arr : List ℚ) (W : ℕ) :
    ∀ n i dq, n = arr.length - i →
    gupiaojichu.snGo arr W dq i =
      (gupiaojichu.smGo (arr.map (fun x : ℚ => -x)) W dq i).map botNeg := by
  intro n
  induction n with
  | zero =>
    intro i dq hn
    have hge : ¬ i < arr.length := by omega
    rw [gupiaojichu.snGo.eq_def, dif_neg hge, gupiaojichu.smGo.eq_def,
      dif_neg (by simpa using hge)]
    rfl
  | succ m ih =>
    intro i dq hn
    have hlt : i < arr.length := by omega
    rw [gupiaojichu.snGo.eq_def, dif_pos hlt, gupiaojichu.smGo.eq_def,
      dif_pos (by simpa using hlt)]
    simp only []
    have hpred : (fun j => decide ((arr.map (fun x : ℚ => -x)).getD j 0 ≤
        (arr.map (fun x : ℚ => -x)).getD i 0)) =
        (fun j => decide (arr.getD j 0 ≥ arr.getD i 0)) := by
      funext j
      rw [decide_eq_decide, getD_map_neg, getD_map_neg]
      exact neg_le_neg_iff
    rw [hpred, List.map_cons]
    congr 1
    · split_ifs with hWi
      · rw [botNeg_coe, getD_map_neg, neg_neg]
      · rfl
    · exact ih (i + 1) _ (by omega)

theorem sliding_min_spec (arr : List ℚ) (W : ℕ) (hW : 1 ≤ W) :
    (gupiaojichu.sliding_min arr W).length = arr.length ∧
    ∀ i, i < arr.length → (gupiaojichu.sliding_min arr W).getD i ⊤ =
      (if W - 1 ≤ i then
        ((List.range' (i + 1 - W) W).map (fun j => arr.getD j 0)).minimum
      else ⊤) := by
  have hdual : gupiaojichu.sliding_min arr W =
      (gupiaojichu.sliding_max (arr.map (fun x : ℚ => -x)) W).map botNeg :=
    snGo_eq_smGo_neg arr W arr.length 0 [] (by omega)
  have hmax := sliding_max_spec (arr.map (fun x : ℚ => -x)) W hW
  constructor
  · rw [hdual, List.length_map, hmax.1, List.length_map]
  · intro i hi
    have hi' : i < (gupiaojichu.sliding_max (arr.map (fun x : ℚ => -x)) W).length := by
      rw [hmax.1]
      simpa using hi
    rw [hdual, List.getD_eq_getElem?_getD, List.getElem?_map, List.getElem?_eq_getElem hi']
    simp only [Option.map_some', Option.getD_some]
    have hgd : (gupiaojichu.sliding_max (arr.map (fun x : ℚ => -x)) W)[i] =
        (gupiaojichu.sliding_max (arr.map (fun x : ℚ => -x)) W).getD i ⊥ := by
      rw [List.getD_eq_getElem?_getD, List.getElem?_eq_getElem hi']
      rfl
    rw [hgd, hmax.2 i (by simpa using hi)]
    split_ifs with hWi
    · have hcongr : (List.range' (i + 1 - W) W).map
          (fun j => (arr.map (fun x : ℚ => -x)).getD j 0) =
          ((List.range' (i + 1 - W) W).map (fun j => arr.getD j 0)).map (fun x : ℚ => -x) := by
        rw [List.map_map]
        refine List.map_congr_left ?_
        intro j _
        exact getD_map_neg arr j
      rw [hcongr, botNeg_maximum_map_neg]
    · rfl

/-- C7: for every array and window `W ≥ 1`, `sliding_max` returns an array of
the same length whose entry `i` is the maximum of the trailing window
`[i-W+1, i]` once `i ≥ W-1` and the `-inf` sentinel before that; dually
`sliding_min` returns the trailing-window minimum with the `+inf` sentinel. -/
theorem sliding_extrema_spec (arr : List ℚ) (W : ℕ) (hW : 1 ≤ W) :
    (gupiaojichu.sliding_max arr W).length = arr.length ∧
    (gupiaojichu.sliding_min arr W).length = arr.length ∧
    (∀ i, i < arr.length → (gupiaojichu.sliding_max arr W).getD i ⊥ =
      (if W - 1 ≤ i then
        ((List.range' (i + 1 - W) W).map (fun j => arr.getD j 0)).maximum
      else ⊥)) ∧
    (∀ i, i < arr.length → (gupiaojichu.sliding_min arr W).getD i ⊤ =
      (if W - 1 ≤ i then
        ((List.range' (i + 1 - W) W).map (fun j => arr.getD j 0)).minimum
      else ⊤)) :=
  ⟨(sliding_max_spec arr W hW).1, (sliding_min_spec arr W hW).1,
    (sliding_max_spec arr W hW).2, (sliding_min_spec arr W hW).2⟩

/-- C7 witness: window extrema of a concrete five-element array with `W = 3`. -/
theorem sliding_extrema_spec_witness :
    (gupiaojichu.sliding_max [3, 1, 4, 1, 5] 3).length = 5 ∧
    (gupiaojichu.sliding_min [3, 1, 4, 1, 5] 3).length = 5 ∧
    (∀ i, i < 5 → (gupiaojichu.sliding_max [3, 1, 4, 1, 5] 3).getD i ⊥ =
      (if 3 - 1 ≤ i then
        ((List.range' (i + 1 - 3) 3).map (fun j => ([3, 1, 4, 1, 5] : List ℚ).getD j 0)).maximum
      else ⊥)) ∧
    (∀ i, i < 5 → (gupiaojichu.sliding_min [3, 1, 4, 1, 5] 3).getD i ⊤ =
      (if 3 - 1 ≤ i then
        ((List.range' (i + 1 - 3) 3).map (fun j => ([3, 1, 4, 1, 5] : List ℚ).getD j 0)).minimum
      else ⊤)) :=
  sliding_extrema_spec [3, 1, 4, 1, 5] 3 (by decide)

/-! ## Claim C1 — alternation of the gupiaojichu fractal detector -/

theorem mergeStep_orig_bound (ms : List gupiaojichu.MergedBar) (ch cl : ℚ) (i : ℕ)
    (h2 : ∀ b ∈ ms, b.orig_idx < i) :
    ∀ b ∈ gupiaojichu.mergeStep ms ch cl i, b.orig_idx < i + 1 := by
  cases ms with
  | nil =>
    intro b hb
    rw [gupiaojichu.mergeStep] at hb
    rw [List.mem_singleton.mp hb]
    exact Nat.lt_succ_self i
  | cons last_bar rest =>
    have hl2 : last_bar.orig_idx < i := h2 _ (List.mem_cons_self _ _)
    cases rest with
    | nil =>
      intro b hb
      rw [gupiaojichu.mergeStep] at hb
      split_ifs at hb <;>
        rcases List.mem_cons.mp hb with rfl | hb <;>
        first
          | exact Nat.lt_succ_of_lt hl2
          | exact Nat.lt_succ_self _
          | exact absurd hb (List.not_mem_nil _)
          | exact Nat.lt_succ_of_lt (h2 _ hb)
    | cons prev_last rest2 =>
      intro b hb
      rw [gupiaojichu.mergeStep] at hb
      split_ifs at hb <;>
        rcases List.mem_cons.mp hb with rfl | hb <;>
        first
          | exact Nat.lt_succ_of_lt hl2
          | exact Nat.lt_succ_self _
          | exact Nat.lt_succ_of_lt (h2 _ hb)
          | exact Nat.lt_succ_of_lt (h2 _ (List.mem_cons_of_mem _ hb))

theorem mergeStep_orig_pairwise (ms : List gupiaojichu.MergedBar) (ch cl : ℚ) (i : ℕ)
    (h1 : ms.Pairwise (fun a b => b.orig_idx < a.orig_idx))
    (h2 : ∀ b ∈ ms, b.orig_idx < i) :
    (gupiaojichu.mergeStep ms ch cl i).Pairwise (fun a b => b.orig_idx < a.orig_idx) := by
  cases ms with
  | nil =>
    rw [gupiaojichu.mergeStep]
    simp
  | cons last_bar rest =>
    have hl2 : last_bar.orig_idx < i := h2 _ (List.mem_cons_self _ _)
    obtain ⟨hrel, hrest⟩ := List.pairwise_cons.mp h1
    cases rest with
    | nil =>
      rw [gupiaojichu.mergeStep]
      split_ifs <;>
        first
          | exact List.pairwise_cons.mpr ⟨fun b hb => h2 b hb, h1⟩
          | exact List.pairwise_cons.mpr ⟨fun b hb => hrel b hb, hrest⟩
          | exact List.pairwise_singleton _ _
    | cons prev_last rest2 =>
      rw [gupiaojichu.mergeStep]
      split_ifs <;>
        first
          | exact List.pairwise_cons.mpr ⟨fun b hb => h2 b hb, h1⟩
          | exact List.pairwise_cons.mpr ⟨fun b hb => hrel b hb, hrest⟩
          | exact List.pairwise_cons.mpr ⟨fun b hb => lt_trans (hrel b hb) hl2, hrest⟩

theorem mergePure_orig (high low : List ℚ) (data_len : ℕ) :
    (gupiaojichu.mergePure high low data_len).Pairwise
      (fun a b => a.orig_idx < b.orig_idx) ∧
    ∀ b ∈ gupiaojichu.mergePure high low data_len, b.orig_idx < data_len := by
  have key : ∀ n : ℕ,
      ((List.range n).foldl (fun merged i =>
        gupiaojichu.mergeStep merged (high.getD i 0) (low.getD i 0) i) []).Pairwise
          (fun a b => b.orig_idx < a.orig_idx) ∧
      ∀ b ∈ (List.range n).foldl (fun merged i =>
        gupiaojichu.mergeStep merged (high.getD i 0) (low.getD i 0) i) [],
          b.orig_idx < n := by
    intro n
    induction n with
    | zero => simp
    | succ k ih =>
      rw [List.range_succ, List.foldl_append, List.foldl_cons, List.foldl_nil]
      exact ⟨mergeStep_orig_pairwise _ _ _ _ ih.1 ih.2,
        mergeStep_orig_bound _ _ _ _ ih.2⟩
  constructor
  · rw [gupiaojichu.mergePure]
    rw [List.pairwise_reverse]
    exact (key data_len).1
  · intro b hb
    rw [gupiaojichu.mergePure, List.mem_reverse] at hb
    exact (key data_len).2 b hb

theorem markInterior_some {merged_bars : List gupiaojichu.MergedBar} {a : ℕ} {p : ℕ × ℤ}
    (h : gupiaojichu.markInterior merged_bars a = some p) :
    p.1 = a ∧ (p.2 = 1 ∨ p.2 = -1) := by
  rw [gupiaojichu.markInterior] at h
  split_ifs at h <;>
    rcases Option.some.inj h with rfl <;> simp

theorem markTrailing_some {merged_bars : List gupiaojichu.MergedBar} {a : ℕ} {p : ℕ × ℤ}
    (h : gupiaojichu.markTrailing merged_bars a = some p) :
    p.1 = a ∧ (p.2 = 1 ∨ p.2 = -1) := by
  rw [gupiaojichu.markTrailing] at h
  split_ifs at h <;>
    rcases Option.some.inj h with rfl <;> simp

theorem candidateTurns_sorted (merged_bars : List gupiaojichu.MergedBar) :
    (gupiaojichu.candidateTurns merged_bars).Pairwise (fun a b => a.1 < b.1) := by
  rw [gupiaojichu.candidateTurns, List.pairwise_append]
  refine ⟨?_, ?_, ?_⟩
  · rw [List.pairwise_filterMap]
    refine (List.pairwise_lt_range' _ _).imp_of_mem ?_
    intro a b _ _ hab x hx y hy
    rw [(markInterior_some hx).1, (markInterior_some hy).1]
    exact hab
  · rw [List.pairwise_filterMap]
    refine (List.pairwise_lt_range' _ _).imp_of_mem ?_
    intro a b _ _ hab x hx y hy
    rw [(markTrailing_some hx).1, (markTrailing_some hy).1]
    exact hab
  · intro x hx y hy
    obtain ⟨a, ha, hxa⟩ := List.mem_filterMap.mp hx
    obtain ⟨b, hb, hyb⟩ := List.mem_filterMap.mp hy
    rw [List.mem_range'_1] at ha hb
    rw [(markInterior_some hxa).1, (markTrailing_some hyb).1]
    omega

theorem candidateTurns_fst_lt (merged_bars : List gupiaojichu.MergedBar) :
    ∀ p ∈ gupiaojichu.candidateTurns merged_bars, p.1 < merged_bars.length := by
  intro p hp
  rw [gupiaojichu.candidateTurns] at hp
  rcases List.mem_append.mp hp with hp | hp
  · obtain ⟨a, ha, hpa⟩ := List.mem_filterMap.mp hp
    rw [List.mem_range'_1] at ha
    rw [(markInterior_some hpa).1]
    omega
  · obtain ⟨a, ha, hpa⟩ := List.mem_filterMap.mp hp
    rw [List.mem_range'_1] at ha
    rw [(markTrailing_some hpa).1]
    omega

theorem candidateTurns_snd (merged_bars : List gupiaojichu.MergedBar) :
    ∀ p ∈ gupiaojichu.candidateTurns merged_bars, p.2 = 1 ∨ p.2 = -1 := by
  intro p hp
  rcases List.mem_append.mp hp with hp | hp <;>
    obtain ⟨a, _, hpa⟩ := List.mem_filterMap.mp hp
  · exact (markInterior_some hpa).2
  · exact (markTrailing_some hpa).2

theorem runBest_sublist (m : List gupiaojichu.MergedBar) (t : ℤ) :
    ∀ (l : List (ℕ × ℤ)) (best : ℕ × ℚ), (gupiaojichu.runBest m t best l).2.Sublist l
  | [], best => by simp [gupiaojichu.runBest]
  | (j, tj) :: rest, best => by
    simp only [gupiaojichu.runBest]
    split_ifs
    · exact List.sublist_cons_of_sublist _ (runBest_sublist m t rest _)
    · exact List.sublist_cons_of_sublist _ (runBest_sublist m t rest _)
    · exact List.Sublist.refl _

theorem runBest_fst_lt (m : List gupiaojichu.MergedBar) (t : ℤ) :
    ∀ (l : List (ℕ × ℤ)) (best : ℕ × ℚ), l.Pairwise (fun a b => a.1 < b.1) →
    (∀ x ∈ l, best.1 < x.1) →
    ∀ x ∈ (gupiaojichu.runBest m t best l).2, (gupiaojichu.runBest m t best l).1.1 < x.1
  | [], best => by simp [gupiaojichu.runBest]
  | (j, tj) :: rest, best => by
    intro hpw hlt
    obtain ⟨hrel, hrest⟩ := List.pairwise_cons.mp hpw
    simp only [gupiaojichu.runBest]
    split_ifs
    · exact runBest_fst_lt m t rest _ hrest (fun x hx => hrel x hx)
    · exact runBest_fst_lt m t rest _ hrest
        (fun x hx => lt_trans (hlt _ (List.mem_cons_self _ _)) (hrel x hx))
    · exact hlt
  
theorem runBest_mem (m : List gupiaojichu.MergedBar) (t : ℤ) :
    ∀ (l : List (ℕ × ℤ)) (best : ℕ × ℚ),
    (gupiaojichu.runBest m t best l).1.1 = best.1 ∨
      ((gupiaojichu.runBest m t best l).1.1, t) ∈ l
  | [], best => by simp [gupiaojichu.runBest]
  | (j, tj) :: rest, best => by
    simp only [gupiaojichu.runBest]
    split_ifs with h1 h2
    · rcases runBest_mem m t rest (j, gupiaojichu.turnVal m j t) with h | h
      · rw [h]
        exact Or.inr (by rw [h1]; exact List.mem_cons_self _ _)
      · exact Or.inr (List.mem_cons_of_mem _ h)
    · rcases runBest_mem m t rest best with h | h
      · exact Or.inl h
      · exact Or.inr (List.mem_cons_of_mem _ h)
    · exact Or.inl rfl

theorem runBest_stop (m : List gupiaojichu.MergedBar) (t : ℤ) :
    ∀ (l : List (ℕ × ℤ)) (best : ℕ × ℚ) (q : ℕ × ℤ) (l' : List (ℕ × ℤ)),
    (gupiaojichu.runBest m t best l).2 = q :: l' → q.2 ≠ t
  | [], best, q, l' => by simp [gupiaojichu.runBest]
  | (j, tj) :: rest, best, q, l' => by
    simp only [gupiaojichu.runBest]
    split_ifs with h1 h2
    · exact runBest_stop m t rest _ q l'
    · exact runBest_stop m t rest _ q l'
    · intro h
      rcases List.cons.inj h with ⟨rfl, rfl⟩
      simpa using h1


theorem compactTurns_props (m : List gupiaojichu.MergedBar) :
    ∀ (n : ℕ) (l : List (ℕ × ℤ)), l.length ≤ n →
    l.Pairwise (fun a b => a.1 < b.1) →
    (gupiaojichu.compactTurns m l).Pairwise (fun a b => a.1 < b.1) ∧
    (∀ p ∈ gupiaojichu.compactTurns m l, p ∈ l) ∧
    (gupiaojichu.compactTurns m l).Chain' (fun a b => a.2 ≠ b.2) ∧
    (∀ p l', gupiaojichu.compactTurns m l = p :: l' →
      ∃ q rest', l = q :: rest' ∧ p.2 = q.2) := by
  intro n
  induction n with
  | zero =>
    intro l hlen _
    have hnil : l = [] := List.eq_nil_of_length_eq_zero (Nat.le_zero.mp hlen)
    subst hnil
    rw [gupiaojichu.compactTurns]
    simp
  | succ k ih =>
    intro l hlen hpw
    cases l with
    | nil =>
      rw [gupiaojichu.compactTurns]
      simp
    | cons p0 rest =>
      obtain ⟨i, t⟩ := p0
      rw [gupiaojichu.compactTurns]
      have hsub := runBest_sublist m t rest (i, gupiaojichu.turnVal m i t)
      have hrpw : (gupiaojichu.runBest m t (i, gupiaojichu.turnVal m i t) rest).2.Pairwise
          (fun a b => a.1 < b.1) := hpw.of_cons.sublist hsub
      have hr2len : (gupiaojichu.runBest m t (i, gupiaojichu.turnVal m i t) rest).2.length ≤ k := by
        have := gupiaojichu.runBest_len m t (i, gupiaojichu.turnVal m i t) rest
        simp only [List.length_cons] at hlen
        omega
      obtain ⟨ihpw, ihmem, ihch, ihhead⟩ := ih _ hr2len hrpw
      have hlt := runBest_fst_lt m t rest (i, gupiaojichu.turnVal m i t) hpw.of_cons
        (fun x hx => List.rel_of_pairwise_cons hpw hx)
      have hmem0 : ((gupiaojichu.runBest m t (i, gupiaojichu.turnVal m i t) rest).1.1, t) ∈
          (i, t) :: rest := by
        rcases runBest_mem m t rest (i, gupiaojichu.turnVal m i t) with h | h
        · rw [h]
          exact List.mem_cons_self _ _
        · exact List.mem_cons_of_mem _ h
      refine ⟨?_, ?_, ?_, ?_⟩
      · exact List.pairwise_cons.mpr ⟨fun p hp => hlt p (ihmem p hp), ihpw⟩
      · intro p hp
        rcases List.mem_cons.mp hp with rfl | hp
        · exact hmem0
        · exact List.mem_cons_of_mem _ (hsub.subset (ihmem p hp))
      · refine List.chain'_cons'.mpr ⟨?_, ihch⟩
        intro b hb
        cases hc : gupiaojichu.compactTurns m
            (gupiaojichu.runBest m t (i, gupiaojichu.turnVal m i t) rest).2 with
        | nil => rw [hc] at hb; simp at hb
        | cons c cs =>
          rw [hc] at hb
          simp only [List.head?_cons, Option.mem_some_iff] at hb
          subst hb
          obtain ⟨q, rest', hq, hbq⟩ := ihhead c cs hc
          have hqt := runBest_stop m t rest (i, gupiaojichu.turnVal m i t) q rest' hq
          show t ≠ c.2
          rw [hbq]
          exact fun h => hqt h.symm
      · intro p l' heq
        obtain ⟨hp1, -⟩ := List.cons.inj heq
        exact ⟨(i, t), rest, rfl, by rw [← hp1]⟩

theorem validateStep_subset (m : List gupiaojichu.MergedBar) (stack : List (ℕ × ℤ))
    (c : ℕ × ℤ) : ∀ x ∈ gupiaojichu.validateStep m stack c, x = c ∨ x ∈ stack := by
  cases stack with
  | nil =>
    intro x hx
    rw [gupiaojichu.validateStep] at hx
    exact Or.inl (List.mem_singleton.mp hx)
  | cons p rest =>
    obtain ⟨pi, pt⟩ := p
    intro x hx
    rw [gupiaojichu.validateStep] at hx
    split_ifs at hx
    · exact Or.inr hx
    · rcases List.mem_cons.mp hx with rfl | hx
      · exact Or.inl rfl
      · exact Or.inr hx
    · exact Or.inr (List.mem_cons_of_mem _ hx)

theorem validateStep_chain (m : List gupiaojichu.MergedBar) (stack : List (ℕ × ℤ))
    (c : ℕ × ℤ)
    (hch : stack.Chain' (fun a b => b.1 < a.1 ∧ a.2 ≠ b.2))
    (hgt : ∀ x ∈ stack, x.1 < c.1) :
    (gupiaojichu.validateStep m stack c).Chain' (fun a b => b.1 < a.1 ∧ a.2 ≠ b.2) := by
  cases stack with
  | nil =>
    rw [gupiaojichu.validateStep]
    simp
  | cons p rest =>
    obtain ⟨pi, pt⟩ := p
    rw [gupiaojichu.validateStep]
    split_ifs with h1 h2
    · exact hch
    · refine List.chain'_cons'.mpr ⟨?_, hch⟩
      intro b hb
      simp only [List.head?_cons, Option.mem_some_iff] at hb
      subst hb
      exact ⟨hgt _ (List.mem_cons_self _ _), fun h => h1 h.symm⟩
    · exact hch.tail

theorem validate_foldl_inv (m : List gupiaojichu.MergedBar) (P : ℕ × ℤ → Prop) :
    ∀ (l : List (ℕ × ℤ)) (stack : List (ℕ × ℤ)),
    l.Pairwise (fun a b => a.1 < b.1) →
    (∀ x ∈ stack, ∀ y ∈ l, x.1 < y.1) →
    stack.Chain' (fun a b => b.1 < a.1 ∧ a.2 ≠ b.2) →
    (∀ x ∈ stack, P x) → (∀ y ∈ l, P y) →
    (l.foldl (gupiaojichu.validateStep m) stack).Chain'
      (fun a b => b.1 < a.1 ∧ a.2 ≠ b.2) ∧
    ∀ x ∈ l.foldl (gupiaojichu.validateStep m) stack, P x
  | [], stack => by
    intro _ _ hch hP _
    exact ⟨hch, hP⟩
  | c :: l, stack => by
    intro hpw hsl hch hPs hPl
    rw [List.foldl_cons]
    refine validate_foldl_inv m P l (gupiaojichu.validateStep m stack c) hpw.of_cons
      ?_ ?_ ?_ (fun y hy => hPl y (List.mem_cons_of_mem _ hy))
    · intro x hx y hy
      rcases validateStep_subset m stack c x hx with rfl | hx
      · exact List.rel_of_pairwise_cons hpw hy
      · exact hsl x hx y (List.mem_cons_of_mem _ hy)
    · exact validateStep_chain m stack c hch
        (fun x hx => hsl x hx c (List.mem_cons_self _ _))
    · intro x hx
      rcases validateStep_subset m stack c x hx with rfl | hx
      · exact hPl x (List.mem_cons_self _ _)
      · exact hPs x hx

theorem validateTurns_props (m : List gupiaojichu.MergedBar) (l : List (ℕ × ℤ))
    (hpw : l.Pairwise (fun a b => a.1 < b.1)) :
    (gupiaojichu.validateTurns m l).Chain' (fun a b => a.1 < b.1 ∧ b.2 ≠ a.2) ∧
    ∀ x ∈ gupiaojichu.validateTurns m l, x ∈ l := by
  have h := validate_foldl_inv m (fun x => x ∈ l) l [] hpw (by simp) (by simp) (by simp)
    (fun y hy => hy)
  constructor
  · rw [gupiaojichu.validateTurns, List.chain'_reverse]
    exact h.1
  · intro x hx
    rw [gupiaojichu.validateTurns, List.mem_reverse] at hx
    exact h.2 x hx

theorem confirmTurns_of_alternating :
    ∀ l : List (ℕ × ℤ), (∀ p ∈ l, p.2 = 1 ∨ p.2 = -1) →
    l.Chain' (fun a b => b.2 ≠ a.2) → gupiaojichu.confirmTurns l = l
  | [], _, _ => rfl
  | [a], _, _ => rfl
  | a :: b :: rest, hty, hch => by
    rw [gupiaojichu.confirmTurns]
    have hab : b.2 ≠ a.2 := (List.chain'_cons.mp hch).1
    have hcond : (a.2 = 1 ∧ b.2 = -1) ∨ (a.2 = -1 ∧ b.2 = 1) := by
      rcases hty a (List.mem_cons_self _ _) with ha | ha <;>
        rcases hty b (List.mem_cons_of_mem _ (List.mem_cons_self _ _)) with hb | hb <;>
        first
          | exact absurd (hb.trans ha.symm) hab
          | exact Or.inl ⟨ha, hb⟩
          | exact Or.inr ⟨ha, hb⟩
    rw [if_pos hcond, confirmTurns_of_alternating (b :: rest)
      (fun p hp => hty p (List.mem_cons_of_mem _ hp)) hch.tail]
    rfl

theorem foldl_set_props (n : ℕ) :
    ∀ (ws : List (ℕ × ℚ)) (init : List ℚ), init.length = n →
    ws.Pairwise (fun a b => a.1 < b.1) →
    (∀ w ∈ ws, w.1 < n) →
    (ws.foldl (fun o w => o.set w.1 w.2) init).length = n ∧
    (∀ w ∈ ws, (ws.foldl (fun o w => o.set w.1 w.2) init).getD w.1 0 = w.2) ∧
    (∀ q, (∀ w ∈ ws, w.1 ≠ q) →
      (ws.foldl (fun o w => o.set w.1 w.2) init).getD q 0 = init.getD q 0)
  | [], init => by
    intro hlen _ _
    exact ⟨hlen, by simp, fun q _ => rfl⟩
  | w0 :: ws, init => by
    intro hlen hpw hbd
    obtain ⟨p, v⟩ := w0
    rw [List.foldl_cons]
    obtain ⟨ih1, ih2, ih3⟩ := foldl_set_props n ws (init.set p v)
      (by rw [List.length_set]; exact hlen) hpw.of_cons
      (fun w hw => hbd w (List.mem_cons_of_mem _ hw))
    refine ⟨ih1, ?_, ?_⟩
    · intro w hw
      rcases List.mem_cons.mp hw with rfl | hw
      · have hne : ∀ x ∈ ws, x.1 ≠ p :=
          fun x hx => Nat.ne_of_gt (List.rel_of_pairwise_cons hpw hx)
        show (ws.foldl (fun o w => o.set w.1 w.2) (init.set p v)).getD p 0 = v
        rw [ih3 p hne, List.getD_eq_getElem?_getD, List.getElem?_set_self']
        have hp : p < init.length := by
          rw [hlen]
          exact hbd (p, v) (List.mem_cons_self _ _)
        simp [hp]
      · exact ih2 w hw
    · intro q hq
      rw [ih3 q (fun x hx => hq x (List.mem_cons_of_mem _ hx)),
        List.getD_eq_getElem?_getD, List.getElem?_set_ne
          (hq (p, v) (List.mem_cons_self _ _)), ← List.getD_eq_getElem?_getD]

theorem writeTurns_eq_foldl (n : ℕ) (m : List gupiaojichu.MergedBar) :
    ∀ (confirmed : List (ℕ × ℤ)) (init : List ℚ),
    (∀ p ∈ confirmed, (m.getD p.1 default).orig_idx < n) →
    gupiaojichu.writeTurns n m confirmed init =
      (confirmed.map (fun p => ((m.getD p.1 default).orig_idx, (p.2 : ℚ)))).foldl
        (fun o w => o.set w.1 w.2) init
  | [], init => fun _ => rfl
  | p :: rest, init => by
    intro h
    rw [gupiaojichu.writeTurns, List.foldl_cons, List.map_cons, List.foldl_cons]
    simp only [if_pos (h p (List.mem_cons_self _ _))]
    exact writeTurns_eq_foldl n m rest _ (fun q hq => h q (List.mem_cons_of_mem _ hq))

theorem getD_replicate_zero (n k : ℕ) : (List.replicate n (0 : ℚ)).getD k 0 = 0 := by
  rw [List.getD_eq_getElem?_getD, List.getElem?_replicate]
  split_ifs <;> rfl

theorem getD_eq_get_of_lt {α : Type} [Inhabited α] (l : List α) {k : ℕ} (h : k < l.length) :
    l.getD k default = l.get ⟨k, h⟩ := by
  rw [List.getD_eq_getElem?_getD, List.getElem?_eq_getElem h]
  rfl

theorem getD_orig_mono (m : List gupiaojichu.MergedBar)
    (hmp : m.Pairwise (fun a b => a.orig_idx < b.orig_idx))
    {k l : ℕ} (hkl : k < l) (hl : l < m.length) :
    (m.getD k default).orig_idx < (m.getD l default).orig_idx := by
  have hk : k < m.length := lt_trans hkl hl
  rw [getD_eq_get_of_lt m hk, getD_eq_get_of_lt m hl]
  exact List.pairwise_iff_get.mp hmp ⟨k, hk⟩ ⟨l, hl⟩ hkl

theorem getD_mem_of_lt {α : Type} [Inhabited α] (l : List α) {k : ℕ} (h : k < l.length) :
    l.getD k default ∈ l := by
  rw [getD_eq_get_of_lt l h]
  exact List.get_mem l k h

theorem identify_turns_cases (data_len : ℕ) (high low : List ℚ) (out : List ℚ)
    (hok : gupiaojichu.identify_turns data_len high low = .ok out) :
    out = List.replicate data_len 0 ∨
    ∃ m, gupiaojichu.merge_contained_bars high low data_len = .ok m ∧
      out = gupiaojichu.writeTurns data_len m
        (gupiaojichu.confirmTurns (gupiaojichu.validatedOf m))
        (List.replicate data_len 0) := by
  rw [gupiaojichu.identify_turns] at hok
  by_cases h6 : data_len < 6
  · left
    simp only [if_pos h6, Bind.bind, Except.bind, Pure.pure, Except.pure,
      Except.ok.injEq] at hok
    exact hok.symm
  · rw [if_neg h6] at hok
    cases hm : gupiaojichu.merge_contained_bars high low data_len with
    | error e =>
      rw [hm] at hok
      simp [Bind.bind, Except.bind, Pure.pure, Except.pure] at hok
    | ok m =>
      rw [hm] at hok
      simp only [Bind.bind, Except.bind, Pure.pure, Except.pure] at hok
      by_cases h8 : m.length ≤ 4 * 2
      · left
        simp only [if_pos h8, Except.ok.injEq] at hok
        exact hok.symm
      · rw [if_neg h8] at hok
        by_cases hv : (gupiaojichu.validatedOf m).length ≤ 4
        · left
          simp only [if_pos hv, Except.ok.injEq] at hok
          exact hok.symm
        · right
          simp only [if_neg hv, Except.ok.injEq] at hok
          exact ⟨m, rfl, hok.symm⟩

/-- C1 (amended): the output of `gupiaojichu.identify_turns` strictly
alternates in sign: any two consecutive non-zero entries of the returned
array have opposite signs. -/
theorem identify_turns_alternation (data_len : ℕ) (high low : List ℚ) (out : List ℚ)
    (hhigh : high.length = data_len) (hlow : low.length = data_len)
    (hok : gupiaojichu.identify_turns data_len high low = .ok out) :
    ∀ i j, i < j → j < out.length → out.getD i 0 ≠ 0 → out.getD j 0 ≠ 0 →
      (∀ k, i < k → k < j → out.getD k 0 = 0) →
      out.getD i 0 * out.getD j 0 < 0 := by
  intro i j hij hjlen hi0 hj0 hbet
  rcases identify_turns_cases data_len high low out hok with hrep | ⟨m, hm, hw⟩
  · exact absurd (hrep ▸ getD_replicate_zero data_len i) hi0
  · have hmeq := merge_ok_eq_pure hm
    have hmp : m.Pairwise (fun a b => a.orig_idx < b.orig_idx) := by
      rw [hmeq]
      exact (mergePure_orig high low data_len).1
    have hmb : ∀ b ∈ m, b.orig_idx < data_len := by
      rw [hmeq]
      exact (mergePure_orig high low data_len).2
    obtain ⟨nt_pw, nt_mem, -, -⟩ := compactTurns_props m
      (gupiaojichu.candidateTurns m).length (gupiaojichu.candidateTurns m)
      (le_refl _) (candidateTurns_sorted m)
    obtain ⟨v_ch, v_mem⟩ := validateTurns_props m
      (gupiaojichu.compactTurns m (gupiaojichu.candidateTurns m)) nt_pw
    have va_types : ∀ p ∈ gupiaojichu.validatedOf m, p.2 = 1 ∨ p.2 = -1 :=
      fun p hp => candidateTurns_snd m p (nt_mem _ (v_mem p hp))
    have va_lt : ∀ p ∈ gupiaojichu.validatedOf m, p.1 < m.length :=
      fun p hp => candidateTurns_fst_lt m p (nt_mem _ (v_mem p hp))
    have hconf : gupiaojichu.confirmTurns (gupiaojichu.validatedOf m) =
        gupiaojichu.validatedOf m :=
      confirmTurns_of_alternating _ va_types
        ((v_ch : (gupiaojichu.validatedOf m).Chain' _).imp (fun _ _ h => h.2))
    rw [hconf] at hw
    have hbound : ∀ p ∈ gupiaojichu.validatedOf m,
        (m.getD p.1 default).orig_idx < data_len :=
      fun p hp => hmb _ (getD_mem_of_lt m (va_lt p hp))
    rw [writeTurns_eq_foldl data_len m _ _ hbound] at hw
    have va_pw_fst : (gupiaojichu.validatedOf m).Pairwise (fun a b => a.1 < b.1) := by
      haveI : IsTrans (ℕ × ℤ) (fun a b : ℕ × ℤ => a.1 < b.1) :=
        ⟨fun a b c h1 h2 => lt_trans h1 h2⟩
      exact List.chain'_iff_pairwise.mp
        ((v_ch : (gupiaojichu.validatedOf m).Chain' _).imp (fun _ _ h => h.1))
    have ws_pw : ((gupiaojichu.validatedOf m).map
        (fun p => ((m.getD p.1 default).orig_idx, (p.2 : ℚ)))).Pairwise
        (fun a b => a.1 < b.1) := by
      rw [List.pairwise_map]
      refine va_pw_fst.imp_of_mem ?_
      intro a b _ hb h1
      exact getD_orig_mono m hmp h1 (va_lt b hb)
    have ws_bd : ∀ w ∈ (gupiaojichu.validatedOf m).map
        (fun p => ((m.getD p.1 default).orig_idx, (p.2 : ℚ))), w.1 < data_len := by
      intro w hw'
      obtain ⟨p, hp, rfl⟩ := List.mem_map.mp hw'
      exact hbound p hp
    have ws_val : ∀ w ∈ (gupiaojichu.validatedOf m).map
        (fun p => ((m.getD p.1 default).orig_idx, (p.2 : ℚ))),
        w.2 = 1 ∨ w.2 = -1 := by
      intro w hw'
      obtain ⟨p, hp, rfl⟩ := List.mem_map.mp hw'
      rcases va_types p hp with h | h
      · left
        simp [h]
      · right
        simp [h]
    have ws_ch : ((gupiaojichu.validatedOf m).map
        (fun p => ((m.getD p.1 default).orig_idx, (p.2 : ℚ)))).Chain'
        (fun a b => a.2 ≠ b.2) := by
      rw [List.chain'_map]
      refine (v_ch : (gupiaojichu.validatedOf m).Chain' _).imp ?_
      intro a b h
      intro hc
      simp only at hc
      exact h.2 (by exact_mod_cast hc.symm)
    obtain ⟨o_len, o_writes, o_zero⟩ := foldl_set_props data_len
      ((gupiaojichu.validatedOf m).map
        (fun p => ((m.getD p.1 default).orig_idx, (p.2 : ℚ))))
      (List.replicate data_len 0) (List.length_replicate _ _) ws_pw ws_bd
    subst hw
    have hiw : ∃ w ∈ (gupiaojichu.validatedOf m).map
        (fun p => ((m.getD p.1 default).orig_idx, (p.2 : ℚ))), w.1 = i := by
      by_contra hc
      push_neg at hc
      exact hi0 (by rw [o_zero i (fun w hw' => hc w hw')]
                    exact getD_replicate_zero _ _)
    have hjw : ∃ w ∈ (gupiaojichu.validatedOf m).map
        (fun p => ((m.getD p.1 default).orig_idx, (p.2 : ℚ))), w.1 = j := by
      by_contra hc
      push_neg at hc
      exact hj0 (by rw [o_zero j (fun w hw' => hc w hw')]
                    exact getD_replicate_zero _ _)
    obtain ⟨wi, hwi, hwi1⟩ := hiw
    obtain ⟨wj, hwj, hwj1⟩ := hjw
    have hvi : (((gupiaojichu.validatedOf m).map
        (fun p => ((m.getD p.1 default).orig_idx, (p.2 : ℚ)))).foldl
        (fun o w => o.set w.1 w.2) (List.replicate data_len 0)).getD i 0 = wi.2 := by
      rw [← hwi1]
      exact o_writes wi hwi
    have hvj : (((gupiaojichu.validatedOf m).map
        (fun p => ((m.getD p.1 default).orig_idx, (p.2 : ℚ)))).foldl
        (fun o w => o.set w.1 w.2) (List.replicate data_len 0)).getD j 0 = wj.2 := by
      rw [← hwj1]
      exact o_writes wj hwj
    obtain ⟨ki, hki⟩ := List.mem_iff_get.mp hwi
    obtain ⟨kj, hkj⟩ := List.mem_iff_get.mp hwj
    have hkij : (ki : ℕ) < (kj : ℕ) := by
      rcases lt_trichotomy (ki : ℕ) (kj : ℕ) with h | h | h
      · exact h
      · exfalso
        have hwiwj : wi = wj := by
          rw [← hki, ← hkj]
          congr 1
          exact Fin.ext h
        rw [← hwi1, ← hwj1, hwiwj] at hij
        exact lt_irrefl _ hij
      · exfalso
        have := List.pairwise_iff_get.mp ws_pw kj ki h
        rw [hki, hkj, hwi1, hwj1] at this
        omega
    have hadj : (kj : ℕ) = (ki : ℕ) + 1 := by
      by_contra hne
      have hmid : (ki : ℕ) + 1 < (kj : ℕ) := by omega
      have hmidlt : (ki : ℕ) + 1 < ((gupiaojichu.validatedOf m).map
          (fun p => ((m.getD p.1 default).orig_idx, (p.2 : ℚ)))).length :=
        lt_trans hmid kj.isLt
      have h1 : wi.1 < (((gupiaojichu.validatedOf m).map
          (fun p => ((m.getD p.1 default).orig_idx, (p.2 : ℚ)))).get
          ⟨(ki : ℕ) + 1, hmidlt⟩).1 := by
        rw [← hki]
        exact List.pairwise_iff_get.mp ws_pw ki ⟨(ki : ℕ) + 1, hmidlt⟩ (Nat.lt_succ_self _)
      have h2 : (((gupiaojichu.validatedOf m).map
          (fun p => ((m.getD p.1 default).orig_idx, (p.2 : ℚ)))).get
          ⟨(ki : ℕ) + 1, hmidlt⟩).1 < wj.1 := by
        rw [← hkj]
        exact List.pairwise_iff_get.mp ws_pw ⟨(ki : ℕ) + 1, hmidlt⟩ kj hmid
      have hval := o_writes _ (List.get_mem _ _ hmidlt)
      have hne0 : (((gupiaojichu.validatedOf m).map
          (fun p => ((m.getD p.1 default).orig_idx, (p.2 : ℚ)))).get
          ⟨(ki : ℕ) + 1, hmidlt⟩).2 ≠ 0 := by
        rcases ws_val _ (List.get_mem _ _ hmidlt) with h | h <;> rw [h] <;> norm_num
      refine hne0 ?_
      rw [← hval]
      exact hbet _ (hwi1 ▸ h1) (hwj1 ▸ h2)
    have hne : wi.2 ≠ wj.2 := by
      have hcg := List.chain'_iff_get.mp ws_ch (ki : ℕ) (by omega)
      rw [hki] at hcg
      have hget : (((gupiaojichu.validatedOf m).map
          (fun p => ((m.getD p.1 default).orig_idx, (p.2 : ℚ)))).get
          ⟨(ki : ℕ) + 1, by omega⟩) = wj := by
        rw [← hkj]
        congr 1
        exact Fin.ext hadj.symm
      rw [hget] at hcg
      exact hcg
    rw [hvi, hvj]
    rcases ws_val wi hwi with h1 | h1 <;> rcases ws_val wj hwj with h2 | h2 <;>
      first
        | (exact absurd (h1.trans h2.symm) hne)
        | (rw [h1, h2]; norm_num)

set_option maxRecDepth 4000 in
/-- C1 witness: the alternation theorem applied to a 30-bar triangle-wave
input whose confirmed turns are `+1, -1, +1, -1, +1`. -/
theorem identify_turns_alternation_witness :
    ([0, 0, 0, 0, 0, 0, 1, 0, 0, 0, 0, 0, -1, 0, 0, 0, 0, 0, 1, 0, 0, 0, 0, 0, -1,
      0, 0, 0, 0, 1] : List ℚ).getD 6 0 *
      ([0, 0, 0, 0, 0, 0, 1, 0, 0, 0, 0, 0, -1, 0, 0, 0, 0, 0, 1, 0, 0, 0, 0, 0, -1,
        0, 0, 0, 0, 1] : List ℚ).getD 12 0 < 0 :=
  identify_turns_alternation 30
    [20, 21, 22, 23, 24, 25, 26, 25, 24, 23, 22, 21, 20, 21, 22, 23, 24, 25, 26, 25,
      24, 23, 22, 21, 20, 21, 22, 23, 24, 25]
    [19, 20, 21, 22, 23, 24, 25, 24, 23, 22, 21, 20, 19, 20, 21, 22, 23, 24, 25, 24,
      23, 22, 21, 20, 19, 20, 21, 22, 23, 24]
    [0, 0, 0, 0, 0, 0, 1, 0, 0, 0, 0, 0, -1, 0, 0, 0, 0, 0, 1, 0, 0, 0, 0, 0, -1,
      0, 0, 0, 0, 1]
    rfl rfl (by with_unfolding_all rfl) 6 12 (by norm_num) (by simp)
    (of_decide_eq_true (by with_unfolding_all rfl))
    (of_decide_eq_true (by with_unfolding_all rfl))
    (by intro k hk1 hk2; interval_cases k <;> with_unfolding_all rfl)
